import Mathlib

/-!
# Verification of the simcache run-identification, sweep and store subsystem

This file gives a shallow embedding, in Lean 4, of the core of the
`simcache` repository (`src/simcache/core.py`, `iterations.py`, `store.py`)
and proves (or refutes) the frozen claims about it.

Conventions used throughout:

* Python `dict`s are embedded as association lists in insertion order,
  together with the last-writer-wins update discipline of real dicts.
* Machine-independent values (ints, strings, booleans, None) are embedded
  directly; floating point numbers, byte strings and numpy scalars are
  outside the embedded value grammar (they are orthogonal to every claim).
* Fallible Python code (raising exceptions) is embedded with `Option` or
  `Except`: a `none`/`.error` result is a raised exception.
* The SHA-256 hash is implemented concretely on byte lists, so every
  definition is executable.
-/

namespace Simcache

/-! ## Bytes, hex and UTF-8 -/

/-- Lowercase hexadecimal digits, in value order. -/
def hexDigits : List Char := "0123456789abcdef".toList

/-- One hexadecimal digit (input expected below 16). -/
def hexDigit (n : Nat) : Char := hexDigits.getD n 'x'

/-- Two lowercase hex characters of a byte. -/
def byteHex (b : Nat) : List Char := [hexDigit (b / 16 % 16), hexDigit (b % 16)]

/-- Lowercase hex string of a byte list, as `bytes.hex()` / `hexdigest` produce. -/
def bytesToHex (bs : List Nat) : String := String.mk (bs.flatMap byteHex)

/-- UTF-8 encoding of a single character (code point), as a list of bytes. -/
def utf8Char (c : Char) : List Nat :=
  let n := c.toNat
  if n < 128 then [n]
  else if n < 2048 then [192 + n / 64, 128 + n % 64]
  else if n < 65536 then [224 + n / 4096, 128 + n / 64 % 64, 128 + n % 64]
  else [240 + n / 262144, 128 + n / 4096 % 64, 128 + n / 64 % 64, 128 + n % 64]

/-- UTF-8 encoding of a string, as Python `str.encode("utf-8")`. -/
def utf8 (s : String) : List Nat := s.toList.flatMap utf8Char

/-! ## SHA-256

A direct implementation of FIPS 180-4 SHA-256 over byte lists, with 32-bit
words represented as `Nat` reduced modulo `2 ^ 32`.  This embeds
`hashlib.sha256(payload).hexdigest()`. -/

/-- 2 ^ 32, the word modulus. -/
def w32 : Nat := 4294967296

/-- Right rotation of a 32-bit word. -/
def rotr (x n : Nat) : Nat := ((x >>> n) ||| (x <<< (32 - n))) % w32

/-- The 64 SHA-256 round constants. -/
def shaK : List Nat :=
  [1116352408, 1899447441, 3049323471, 3921009573, 961987163, 1508970993,
   2453635748, 2870763221, 3624381080, 310598401, 607225278, 1426881987,
   1925078388, 2162078206, 2614888103, 3248222580, 3835390401, 4022224774,
   264347078, 604807628, 770255983, 1249150122, 1555081692, 1996064986,
   2554220882, 2821834349, 2952996808, 3210313671, 3336571891, 3584528711,
   113926993, 338241895, 666307205, 773529912, 1294757372, 1396182291,
   1695183700, 1986661051, 2177026350, 2456956037, 2730485921, 2820302411,
   3259730800, 3345764771, 3516065817, 3600352804, 4094571909, 275423344,
   430227734, 506948616, 659060556, 883997877, 958139571, 1322822218,
   1537002063, 1747873779, 1955562222, 2024104815, 2227730452, 2361852424,
   2428436474, 2756734187, 3204031479, 3329325298]

/-- Initial SHA-256 hash state. -/
def shaH0 : Nat × Nat × Nat × Nat × Nat × Nat × Nat × Nat :=
  (1779033703, 3144134277, 1013904242, 2773480762,
   1359893119, 2600822924, 528734635, 1541459225)

/-- Big-endian bytes of a value, `k` bytes wide. -/
def natToBytesBE (k n : Nat) : List Nat :=
  match k with
  | 0 => []
  | k + 1 => natToBytesBE k (n / 256) ++ [n % 256]

/-- One 32-bit big-endian word from four bytes. -/
def word32 (a b c d : Nat) : Nat := a * 16777216 + b * 65536 + c * 256 + d

/-- The sixteen 32-bit words of one 64-byte block. -/
def blockWords : List Nat → List Nat
  | a :: b :: c :: d :: rest => word32 a b c d :: blockWords rest
  | _ => []

/-- One message-schedule extension step: appends word `w_t` computed from
the existing schedule. -/
def schedStep (ws : List Nat) : List Nat :=
  let n := ws.length
  let w15 := ws.getD (n - 15) 0
  let w2 := ws.getD (n - 2) 0
  let s0 := rotr w15 7 ^^^ rotr w15 18 ^^^ (w15 >>> 3)
  let s1 := rotr w2 17 ^^^ rotr w2 19 ^^^ (w2 >>> 10)
  ws ++ [(ws.getD (n - 16) 0 + s0 + ws.getD (n - 7) 0 + s1) % w32]

/-- Extend the 16 block words to the 64-word message schedule. -/
def extendWords : Nat → List Nat → List Nat
  | 0, ws => ws
  | n + 1, ws => extendWords n (schedStep ws)

/-- One SHA-256 compression round; `kw` is the pair of round constant and
schedule word. -/
def shaRound (st : Nat × Nat × Nat × Nat × Nat × Nat × Nat × Nat) (kw : Nat × Nat) :
    Nat × Nat × Nat × Nat × Nat × Nat × Nat × Nat :=
  let (a, b, c, d, e, f, g, h) := st
  let s1 := rotr e 6 ^^^ rotr e 11 ^^^ rotr e 25
  let ch := (e &&& f) ^^^ ((e ^^^ (w32 - 1)) &&& g)
  let t1 := (h + s1 + ch + kw.1 + kw.2) % w32
  let s0 := rotr a 2 ^^^ rotr a 13 ^^^ rotr a 22
  let maj := (a &&& b) ^^^ (a &&& c) ^^^ (b &&& c)
  let t2 := (s0 + maj) % w32
  ((t1 + t2) % w32, a, b, c, (d + t1) % w32, e, f, g)

/-- Compress one 64-byte block into the running hash state. -/
def shaCompress (st : Nat × Nat × Nat × Nat × Nat × Nat × Nat × Nat)
    (block : List Nat) : Nat × Nat × Nat × Nat × Nat × Nat × Nat × Nat :=
  let ws := extendWords 48 (blockWords block)
  let (a, b, c, d, e, f, g, h) := (shaK.zip ws).foldl shaRound st
  let (a0, b0, c0, d0, e0, f0, g0, h0) := st
  ((a0 + a) % w32, (b0 + b) % w32, (c0 + c) % w32, (d0 + d) % w32,
   (e0 + e) % w32, (f0 + f) % w32, (g0 + g) % w32, (h0 + h) % w32)

/-- Process the padded message, 64 bytes at a time; the first argument is
the number of 64-byte blocks (structural fuel, exact after padding). -/
def shaBlocks : Nat → (Nat × Nat × Nat × Nat × Nat × Nat × Nat × Nat) →
    List Nat → Nat × Nat × Nat × Nat × Nat × Nat × Nat × Nat
  | 0, st, _ => st
  | n + 1, st, msg => shaBlocks n (shaCompress st (msg.take 64)) (msg.drop 64)

/-- SHA-256 padding: a `0x80` byte, zeros to 56 mod 64, then the bit length
as an 8-byte big-endian integer. -/
def shaPad (msg : List Nat) : List Nat :=
  let len := msg.length
  let zeros := (119 - len % 64) % 64
  msg ++ [128] ++ List.replicate zeros 0 ++ natToBytesBE 8 (len * 8)

/-- The 32 digest bytes of a message. -/
def sha256Bytes (msg : List Nat) : List Nat :=
  let padded := shaPad msg
  let (a, b, c, d, e, f, g, h) := shaBlocks (padded.length / 64) shaH0 padded
  natToBytesBE 4 a ++ natToBytesBE 4 b ++ natToBytesBE 4 c ++ natToBytesBE 4 d ++
  natToBytesBE 4 e ++ natToBytesBE 4 f ++ natToBytesBE 4 g ++ natToBytesBE 4 h

/-- `hashlib.sha256(msg).hexdigest()`: the 64-character lowercase hex digest. -/
def sha256Hex (msg : List Nat) : String := bytesToHex (sha256Bytes msg)

/-! ## Normalized values

`JVal` is the JSON-serializable value tree produced by `_normalize` in
`core.py`: null, booleans, integers, strings, arrays, and string-keyed
objects (association lists in insertion order). -/

inductive JVal where
  | null
  | bool (b : Bool)
  | int (n : Int)
  | str (s : String)
  | arr (xs : List JVal)
  | obj (es : List (String × JVal))

/-- Strict lexicographic comparison of character lists by code point. -/
def strLtb : List Char → List Char → Bool
  | [], [] => false
  | [], _ :: _ => true
  | _ :: _, [] => false
  | c :: cs, d :: ds => if c.toNat = d.toNat then strLtb cs ds else decide (c.toNat < d.toNat)

/-- Python `str < str`: lexicographic by code point. -/
def pyStrLt (a b : String) : Bool := strLtb a.toList b.toList

/-- First-match association lookup, the access discipline of a Python dict
embedded as an insertion-ordered association list with distinct keys. -/
def lookupJ (k : String) : List (String × JVal) → Option JVal
  | [] => Option.none
  | (k₁, v) :: t => if k₁ = k then some v else lookupJ k t

/- Python `==` on normalized values.  Booleans equal their numeric value
(`True == 1`), lists compare elementwise, dicts by keys and values; values
of unrelated types are unequal. -/
mutual

/-- Python `==` on normalized values. -/
def pyEqJ : JVal → JVal → Bool
  | .null, .null => true
  | .bool a, .bool b => a == b
  | .bool a, .int n => (if a then (1 : Int) else 0) == n
  | .int n, .bool b => n == (if b then (1 : Int) else 0)
  | .int a, .int b => a == b
  | .str a, .str b => a == b
  | .arr xs, .arr ys => xs.length == ys.length && pyEqArr xs ys
  | .obj es, .obj fs => es.length == fs.length && pyEqObj es fs
  | _, _ => false

def pyEqArr : List JVal → List JVal → Bool
  | [], _ => true
  | _ :: _, [] => false
  | x :: xs, y :: ys => pyEqJ x y && pyEqArr xs ys

def pyEqObj : List (String × JVal) → List (String × JVal) → Bool
  | [], _ => true
  | (k, v) :: es, fs =>
    (match lookupJ k fs with
     | some w => pyEqJ v w
     | Option.none => false) && pyEqObj es fs

end

/- Python `<` on normalized values, `Option.none` marking a `TypeError`
(unorderable types).  Numbers (booleans included) compare numerically,
strings lexicographically by code point, lists lexicographically with an
equality skip; `None`, dicts, and cross-type pairs are unorderable. -/
mutual

/-- Python `<` on normalized values; `Option.none` is a `TypeError`. -/
def pyLtJ : JVal → JVal → Option Bool
  | .bool a, .bool b => some (decide ((if a then (1 : Int) else 0) < (if b then 1 else 0)))
  | .bool a, .int n => some (decide ((if a then (1 : Int) else 0) < n))
  | .int n, .bool b => some (decide (n < (if b then (1 : Int) else 0)))
  | .int a, .int b => some (decide (a < b))
  | .str a, .str b => some (pyStrLt a b)
  | .arr xs, .arr ys => pyLtArr xs ys
  | _, _ => Option.none

def pyLtArr : List JVal → List JVal → Option Bool
  | [], [] => some false
  | [], _ :: _ => some true
  | _ :: _, [] => some false
  | x :: xs, y :: ys => if pyEqJ x y then pyLtArr xs ys else pyLtJ x y

end

/-! ## Stable sorting with a partial comparator

`osort` models Python `sorted` with a comparator that can raise: a stable
insertion sort, processing the input left to right and inserting each
element behind the already-placed elements it is not strictly below.  On
inputs whose elements are pairwise comparable this agrees with `sorted`
(any two stable sorts coincide); a `TypeError` in a comparison surfaces as
`Option.none`. -/

def oInsert (lt : α → α → Option Bool) (x : α) : List α → Option (List α)
  | [] => some [x]
  | y :: ys =>
    match lt x y with
    | Option.none => Option.none
    | some true => some (x :: y :: ys)
    | some false => (oInsert lt x ys).map (y :: ·)

def osortAux (lt : α → α → Option Bool) : List α → List α → Option (List α)
  | acc, [] => some acc
  | acc, x :: xs =>
    match oInsert lt x acc with
    | some acc₂ => osortAux lt acc₂ xs
    | Option.none => Option.none

/-- Python `sorted(l)` with the partial order `lt`. -/
def osort (lt : α → α → Option Bool) (l : List α) : Option (List α) :=
  osortAux lt [] l

/-! ## The canonicalizer (`_normalize` and `json.dumps`) -/

/-- A Python dict key reachable in a run specification: a string or an
integer; `_normalize` coerces keys with `str(key)`. -/
inductive PKey where
  | ks (s : String)
  | ki (n : Int)
deriving DecidableEq, Repr

/-- `str(key)`. -/
def PKey.toStr : PKey → String
  | .ks s => s
  | .ki n => toString n

/-- Dict-comprehension insertion: assigning to an existing key updates the
value in place (keeping the key position), a new key is appended. -/
def upsertE (k : String) (v : JVal) : List (String × JVal) → List (String × JVal)
  | [] => [(k, v)]
  | (k₁, v₁) :: t => if k₁ = k then (k₁, v) :: t else (k₁, v₁) :: upsertE k v t

/-- The dict built by `{str(key): _normalize(value) for ...}`: entries in
first-insertion order, a duplicate (coerced) key keeping its position but
taking the last value. -/
def collapseEntries (l : List (String × JVal)) : List (String × JVal) :=
  l.foldl (fun acc kv => upsertE kv.1 kv.2 acc) []

/-- The unnormalized Python values a run specification can be built from:
`None`, booleans, integers, strings, `pathlib` paths, lists, tuples, sets
(given in iteration order) and dicts (given in insertion order).  Floats,
byte strings and numpy values are outside the grammar; every claim is
orthogonal to them. -/
inductive PyVal where
  | none
  | bool (b : Bool)
  | int (n : Int)
  | str (s : String)
  | path (s : String)
  | list (xs : List PyVal)
  | tuple (xs : List PyVal)
  | set (xs : List PyVal)
  | dict (es : List (PKey × PyVal))

/- `_normalize` from `core.py`: dicts become string-keyed dicts of
normalized values, lists and tuples become lists, sets become sorted lists
(`Option.none` when `sorted` raises a `TypeError`), paths become their
string form, scalars pass through. -/
mutual

/-- `_normalize` from `core.py`. -/
def normalize : PyVal → Option JVal
  | .none => some .null
  | .bool b => some (.bool b)
  | .int n => some (.int n)
  | .str s => some (.str s)
  | .path s => some (.str s)
  | .list xs => (normList xs).map .arr
  | .tuple xs => (normList xs).map .arr
  | .set xs =>
    match normList xs with
    | some js => (osort pyLtJ js).map .arr
    | Option.none => Option.none
  | .dict es => (normEntries es).map fun kvs => .obj (collapseEntries kvs)

def normList : List PyVal → Option (List JVal)
  | [] => some []
  | x :: xs =>
    match normalize x, normList xs with
    | some j, some js => some (j :: js)
    | _, _ => Option.none

def normEntries : List (PKey × PyVal) → Option (List (String × JVal))
  | [] => some []
  | (k, v) :: es =>
    match normalize v, normEntries es with
    | some j, some js => some ((k.toStr, j) :: js)
    | _, _ => Option.none

end

/-- Ascending name order on string-keyed entries, used both by
`json.dumps(..., sort_keys=True)` (keys compare as Python strings, by code
point) and by `sorted` over directory names. -/
def keyLeStr (a b : String × β) : Prop := pyStrLt b.1 a.1 = false

instance : DecidableRel (@keyLeStr β) := fun a b =>
  instDecidableEqBool (pyStrLt b.1 a.1) false

/-- Stable sort of object entries by key. -/
def sortE (es : List (String × JVal)) : List (String × JVal) :=
  List.insertionSort keyLeStr es

/- Recursively sort every object's entries by key.  `json.dumps` with
`sort_keys=True` prints exactly the plain dump of this tree. -/
mutual

/-- Recursive key-sort of every object node. -/
def canon : JVal → JVal
  | .arr xs => .arr (canonList xs)
  | .obj es => .obj (sortE (canonEntries es))
  | v => v

def canonList : List JVal → List JVal
  | [] => []
  | x :: xs => canon x :: canonList xs

def canonEntries : List (String × JVal) → List (String × JVal)
  | [] => []
  | (k, v) :: es => (k, canon v) :: canonEntries es

end

/-- One escaped character of a JSON string with `ensure_ascii=True` (the
default used by `hash_spec`): printable ASCII except quote and backslash
passes through, short escapes for the usual controls, `\uXXXX` otherwise,
astral code points as surrogate pairs. -/
def uEsc (n : Nat) : List Char :=
  [ '\\', 'u', hexDigit (n / 4096 % 16), hexDigit (n / 256 % 16),
    hexDigit (n / 16 % 16), hexDigit (n % 16)]

def escShort (c : Char) : Option (List Char) :=
  if c = '"' then some [ '\\', '"']
  else if c = '\\' then some [ '\\', '\\']
  else if c.toNat = 8 then some [ '\\', 'b']
  else if c.toNat = 9 then some [ '\\', 't']
  else if c.toNat = 10 then some [ '\\', 'n']
  else if c.toNat = 12 then some [ '\\', 'f']
  else if c.toNat = 13 then some [ '\\', 'r']
  else Option.none

def escChar (c : Char) : List Char :=
  match escShort c with
  | some out => out
  | Option.none =>
    if 32 ≤ c.toNat && c.toNat ≤ 126 then [c]
    else if c.toNat < 65536 then uEsc c.toNat
    else uEsc (55296 + (c.toNat - 65536) / 1024) ++ uEsc (56320 + (c.toNat - 65536) % 1024)

/-- One character of a JSON string with `ensure_ascii=False` (used by the
legacy `_canonical_json`): only quote, backslash and controls escape. -/
def escCharNA (c : Char) : List Char :=
  match escShort c with
  | some out => out
  | Option.none => if c.toNat < 32 then uEsc c.toNat else [c]

/-- A JSON string literal under the escaper `esc`. -/
def quoteWith (esc : Char → List Char) (s : String) : String :=
  "\"" ++ String.mk (s.toList.flatMap esc) ++ "\""

/- Plain JSON serialization (entries in the order given) with separators
`(",", ":")` and the character escaper `esc`.  Combined with `canon` this
is `json.dumps(value, sort_keys=True, separators=(",", ":"))`. -/
mutual

/-- Plain JSON serialization with the character escaper `esc`. -/
def pdumps (esc : Char → List Char) : JVal → String
  | .null => "null"
  | .bool true => "true"
  | .bool false => "false"
  | .int n => toString n
  | .str s => quoteWith esc s
  | .arr xs => "[" ++ pdumpsArr esc xs ++ "]"
  | .obj es => "\x7b" ++ pdumpsObj esc es ++ "\x7d"

def pdumpsArr (esc : Char → List Char) : List JVal → String
  | [] => ""
  | x :: t => pdumps esc x ++ (if t.isEmpty then "" else ",") ++ pdumpsArr esc t

def pdumpsObj (esc : Char → List Char) : List (String × JVal) → String
  | [] => ""
  | (k, v) :: t =>
    quoteWith esc k ++ ":" ++ pdumps esc v ++ (if t.isEmpty then "" else ",") ++ pdumpsObj esc t

end

/-- The canonical payload of `hash_spec`:
`json.dumps(normalized, sort_keys=True, separators=(",", ":"))`, with the
default `ensure_ascii=True`. -/
def payload (j : JVal) : String := pdumps escChar (canon j)

/-- `hash_spec` from `core.py`: normalize, dump canonically, SHA-256 hex
digest (full 64 characters, no truncation).  `Option.none` is a raised
`TypeError` from normalizing an unsortable set. -/
def hash_spec (spec : PyVal) : Option String :=
  (normalize spec).map fun j => sha256Hex (utf8 (payload j))

/-- Legacy `make_run_id` from the top half of `core.py`: canonical JSON of
the (already JSON-ready) spec with `ensure_ascii=False`, SHA-256, truncated
to a 12-character prefix.  Nothing in the live code path calls it. -/
def make_run_id (spec : JVal) : String :=
  (sha256Hex (utf8 (pdumps escCharNA (canon spec)))).take 12

/-- `SimCache.build_spec` from `store.py`: the hashing input dict, in the
insertion order the code uses. -/
def build_spec (params : PyVal) (seed : Int) (code_version : Option String)
    (env : PyVal) : PyVal :=
  .dict
    [ (.ks "code_version", match code_version with | some s => .str s | Option.none => .none),
      (.ks "env", env),
      (.ks "params", params),
      (.ks "seed", .int seed)]

/-- `SimCache.compute_run_id`: assemble the spec and delegate to
`hash_spec`.  The environment dict is passed explicitly; the
`env is None` branch of the source fills in `collect_env()`, an interpreter
probe outside this model. -/
def compute_run_id (params : PyVal) (seed : Int) (code_version : Option String)
    (env : PyVal) : Option String :=
  hash_spec (build_spec params seed code_version env)

/-! ## Semantic equality of run specifications

`semEqb` captures the spec's notion of two specifications being equal "in
content": equal scalars, lists and tuples interchangeable with pointwise
equal elements, sets equal as finite collections (any iteration order),
dicts equal as key-value mappings (any insertion order). -/

/-- First-match lookup in a Python dict with unnormalized keys. -/
def lookupP (k : PKey) : List (PKey × PyVal) → Option PyVal
  | [] => Option.none
  | (k₁, v) :: t => if k₁ = k then some v else lookupP k t

/-- Remove the first element satisfying `r`, keeping the rest in order. -/
def pickWith (r : α → Bool) : List α → Option (List α)
  | [] => Option.none
  | y :: ys => if r y then some ys else (pickWith r ys).map (y :: ·)

/-- Multiset matching up to the relation `r`: every left element matches
against and removes one `r`-related right element. -/
def setMatch (r : α → α → Bool) : List α → List α → Bool
  | [], [] => true
  | [], _ :: _ => false
  | x :: xs, ys =>
    match pickWith (r x) ys with
    | some ys₂ => setMatch r xs ys₂
    | Option.none => false

/-- Semantic equality of Python run-specification values, with structural
fuel bounding the nesting depth of the left value (the recursion descends
into subvalues at every step, so any fuel above the depth is enough). -/
def semEqbF : Nat → PyVal → PyVal → Bool
  | 0, _, _ => false
  | f + 1, a, b =>
    match a, b with
    | .none, .none => true
    | .bool x, .bool y => x == y
    | .int x, .int y => x == y
    | .str x, .str y => x == y
    | .path x, .path y => x == y
    | .list xs, .list ys => xs.length == ys.length && (xs.zip ys).all fun p => semEqbF f p.1 p.2
    | .list xs, .tuple ys => xs.length == ys.length && (xs.zip ys).all fun p => semEqbF f p.1 p.2
    | .tuple xs, .list ys => xs.length == ys.length && (xs.zip ys).all fun p => semEqbF f p.1 p.2
    | .tuple xs, .tuple ys => xs.length == ys.length && (xs.zip ys).all fun p => semEqbF f p.1 p.2
    | .set xs, .set ys => setMatch (semEqbF f) xs ys
    | .dict es, .dict fs =>
      es.length == fs.length && es.all fun kv =>
        match lookupP kv.1 fs with
        | some w => semEqbF f kv.2 w
        | Option.none => false
    | _, _ => false

mutual

/-- Nesting depth of a value (scalars have depth 1). -/
def pyDepth : PyVal → Nat
  | .list xs => pyDepthList xs + 1
  | .tuple xs => pyDepthList xs + 1
  | .set xs => pyDepthList xs + 1
  | .dict es => pyDepthEntries es + 1
  | _ => 1

def pyDepthList : List PyVal → Nat
  | [] => 0
  | x :: xs => max (pyDepth x) (pyDepthList xs)

def pyDepthEntries : List (PKey × PyVal) → Nat
  | [] => 0
  | (_, v) :: es => max (pyDepth v) (pyDepthEntries es)

end

/-- Semantic equality (the depth of the left value bounds the recursion). -/
def semEqb (a b : PyVal) : Bool := semEqbF (pyDepth a) a b

/-! ## Well-formed specifications

`wf` states the structural side conditions under which canonical hashing
is insertion-order independent: every dict's keys have pairwise distinct
string coercions (real Python dicts additionally guarantee distinct keys),
and every set's elements are hashable (as Python requires), pairwise
distinct and pairwise order-comparable once normalized (so that `sorted`
succeeds). -/

mutual

/-- Hashability, the Python membership requirement for set elements. -/
def hashableB : PyVal → Bool
  | .tuple xs => hashableListB xs
  | .list _ => false
  | .set _ => false
  | .dict _ => false
  | _ => true

def hashableListB : List PyVal → Bool
  | [] => true
  | x :: xs => hashableB x && hashableListB xs

end

/-- Comparable in both directions and not equal: the pair constraint under
which Python `sorted` has a unique answer for distinct set elements. -/
def cdB (a b : JVal) : Bool :=
  (pyLtJ a b).isSome && (pyLtJ b a).isSome && !(pyEqJ a b)

/-- All unordered pairs of a list satisfy `p`. -/
def pairwiseB (p : α → α → Bool) : List α → Bool
  | [] => true
  | x :: xs => xs.all (p x) && pairwiseB p xs

/-- No duplicate strings. -/
def nodupB : List String → Bool
  | [] => true
  | k :: ks => !(ks.contains k) && nodupB ks

mutual

/-- Well-formedness of a specification value (see the section comment). -/
def wf : PyVal → Bool
  | .list xs => wfList xs
  | .tuple xs => wfList xs
  | .set xs =>
    hashableListB xs &&
    (match normList xs with
     | some js => pairwiseB cdB js
     | Option.none => false)
  | .dict es => nodupB (es.map fun kv => kv.1.toStr) && wfEntries es
  | _ => true

def wfList : List PyVal → Bool
  | [] => true
  | x :: xs => wf x && wfList xs

def wfEntries : List (PKey × PyVal) → Bool
  | [] => true
  | (_, v) :: es => wf v && wfEntries es

end

/- Object-free normalized values: what normalizing a hashable value can
produce.  `pyEqJ` and `pyLtJ` are an equivalence and a partial order on
this fragment. -/
mutual

/-- No object node anywhere in the value. -/
def objFreeB : JVal → Bool
  | .obj _ => false
  | .arr xs => objFreeListB xs
  | _ => true

def objFreeListB : List JVal → Bool
  | [] => true
  | x :: xs => objFreeB x && objFreeListB xs

end

/- The numeric view: Python compares and equates booleans as the integers
0 and 1.  `jview` collapses booleans into integers, so that on object-free
values Python `==` is exactly equality of views and Python `<` only ever
sees views.  This isolates every cross-type numeric case in two lemmas. -/
mutual

/-- Collapse boolean nodes to their integer values. -/
def jview : JVal → JVal
  | .bool b => .int (if b then 1 else 0)
  | .arr xs => .arr (jviewList xs)
  | v => v

def jviewList : List JVal → List JVal
  | [] => []
  | x :: xs => jview x :: jviewList xs

end

/- Values in the image of `jview` on object-free values: no boolean and no
object node anywhere. -/
mutual

/-- No boolean or object node anywhere in the value. -/
def viewedB : JVal → Bool
  | .bool _ => false
  | .obj _ => false
  | .arr xs => viewedListB xs
  | _ => true

def viewedListB : List JVal → Bool
  | [] => true
  | x :: xs => viewedB x && viewedListB xs

end

/- A size measure on normalized values, used for strong induction. -/
mutual

/-- Node count of a normalized value. -/
def jsize : JVal → Nat
  | .arr xs => jsizeList xs + 1
  | .obj es => jsizeEntries es + 1
  | _ => 1

def jsizeList : List JVal → Nat
  | [] => 0
  | x :: xs => jsize x + jsizeList xs

def jsizeEntries : List (String × JVal) → Nat
  | [] => 0
  | (_, v) :: es => jsize v + jsizeEntries es

end

/-! ## Sweep enumeration (`iterations.py`) -/

/-- `itertools.product`: Cartesian product of the axes in order, later
axes varying fastest. -/
def listProd : List (List α) → List (List α)
  | [] => [[]]
  | xs :: rest => xs.flatMap fun x => (listProd rest).map (x :: ·)

/-- `expand_grid`: axes in declaration order, one parameter dict (as an
ordered association list, `dict(zip(keys, combo))`) per combination. -/
def expand_grid (params_grid : List (String × List α)) : List (List (String × α)) :=
  (listProd (params_grid.map fun kv => kv.2)).map fun combo =>
    (params_grid.map fun kv => kv.1).zip combo

/-- A sweep grid document; a field is `some` exactly when the key is
present in the mapping. -/
structure Grid (α : Type) where
  params : Option (List (String × List α))
  seeds : Option (List Int)
  seed : Option Int

/-- `iter_sweep`: parameter combinations in grid order (a missing or empty
`params` giving the single empty combination), seeds from `seeds`, else a
singleton `seed`, else `[0]`; parameters outer, seeds inner. -/
def iter_sweep (grid : Grid α) : List (List (String × α) × Int) :=
  let params_grid := grid.params.getD []
  let combinations := if params_grid.isEmpty then [[]] else expand_grid params_grid
  let seeds :=
    match grid.seeds with
    | some l => l
    | Option.none =>
      match grid.seed with
      | some s => [s]
      | Option.none => [0]
  combinations.flatMap fun params => seeds.map fun seed => (params, seed)

/-! ## The store model (`store.py`)

The filesystem under a store root is embedded explicitly: the parsed
manifest document (when `manifest.json` exists), and the run
subdirectories with their `metadata.json` state and artifact files. -/

/-- Timestamp field of a JSON record: absent key, JSON null, or a string. -/
inductive TsVal where
  | absent
  | null
  | str (s : String)
deriving DecidableEq, Repr

/-- `record.get("timestamp", "")`, the `list_runs` sort key: an absent key
defaults to `""`, a null value is Python `None` (`Option.none` here), whose
comparisons raise `TypeError`. -/
def TsVal.sortKey : TsVal → Option String
  | .absent => some ""
  | .null => Option.none
  | .str s => some s

/-- `record.get("timestamp") or ""`, the total `load_latest` key. -/
def TsVal.orEmpty : TsVal → String
  | .str s => s
  | _ => ""

/-- `record.get("timestamp")`: an absent key collapses to null. -/
def TsVal.orNull : TsVal → TsVal
  | .absent => .null
  | t => t

/-- Tags field of a JSON record: absent key, JSON null, or a string list. -/
inductive TagsVal where
  | absent
  | null
  | lst (tags : List String)
deriving DecidableEq, Repr

/-- `record.get("tags") or []`. -/
def TagsVal.orEmpty : TagsVal → List String
  | .lst l => l
  | _ => []

/-- `record.get("tags", [])`: an absent key defaults to the empty list, a
null value stays `None`. -/
def TagsVal.orEmptyList : TagsVal → TagsVal
  | .absent => .lst []
  | t => t

/-- A numpy array artifact: element type tag, shape, flattened element
data.  Element values are embedded as integers; the claims quantify over
values, shapes and dtypes, not over float representations. -/
structure NpArray where
  dtype : String
  shape : List Nat
  data : List Int
deriving DecidableEq, Repr

/-- Modelled from the spec: the on-disk content written by the external
array libraries (numpy `savez_compressed`/`load`, `zarr`, `h5py`), which
are not code of this repository.  Spec section 4.3 fixes each codec to a
lossless round trip, so a written file or directory is modelled by the
array mapping it stores, tagged with its encoding. -/
inductive ArraysFile where
  | npzFile (arrays : List (String × NpArray))
  | zarrDir (arrays : List (String × NpArray))
  | h5File (arrays : List (String × NpArray))
deriving DecidableEq, Repr

/-- The run metadata record (the claim-relevant fields). -/
structure Metadata where
  timestamp : TsVal
  tags : TagsVal
  run_id : Option String := Option.none
  arrays_format : Option String := Option.none
  arrays_path : Option String := Option.none
deriving DecidableEq, Repr

/-- `metadata.json` as found on disk. -/
inductive MetaRead where
  | ok (m : Metadata)
  | unreadable
  | absent
deriving DecidableEq, Repr

/-- One run subdirectory under `root/runs/`: its metadata state and its
artifact files by name. -/
structure RunDir where
  meta : MetaRead
  files : List (String × ArraysFile)
deriving DecidableEq, Repr

/-- One manifest entry; a hand-written manifest may omit either key, the
writer always stores both. -/
structure MEntry where
  timestamp : TsVal
  tags : TagsVal
deriving DecidableEq, Repr

/-- The store root: the parsed manifest document when `manifest.json`
exists, and the run subdirectories by name (in arbitrary on-disk order). -/
structure Store where
  manifest : Option (List (String × MEntry))
  runs : List (String × RunDir)
deriving DecidableEq, Repr

/-- Availability of the optional codec libraries. -/
structure Codecs where
  zarr : Bool
  h5py : Bool
deriving DecidableEq, Repr

/-- A raised Python exception (the claim-relevant shapes). -/
inductive PyErr where
  | valueError (msg : String)
  | runtimeError (msg : String)
  | typeError
  | fileNotFound
  | badFile
  | jsonError
  | keyError
deriving DecidableEq, Repr

/-- One record returned by `list_runs`. -/
structure RunRec where
  run_id : String
  timestamp : TsVal
  tags : TagsVal
deriving DecidableEq, Repr

/-- Python dict assignment on a string-keyed association list: an existing
key is updated in place, a new key appended. -/
def upsertA (k : String) (v : β) : List (String × β) → List (String × β)
  | [] => [(k, v)]
  | (k₁, v₁) :: t => if k₁ = k then (k₁, v) :: t else (k₁, v₁) :: upsertA k v t

/-- First-match string-keyed association lookup. -/
def lookupA (k : String) : List (String × β) → Option β
  | [] => Option.none
  | (k₁, v) :: t => if k₁ = k then some v else lookupA k t

/-- `SimCache._save_arrays`: dispatch on the encoding name, write the
artifact file into the run directory (the zarr branch removes an existing
directory and rewrites it, a net upsert), return the written path; an
unregistered name raises `ValueError` before anything is written, a
missing optional library raises `RuntimeError`. -/
def save_arrays (c : Codecs) (fmt : String) (arrays : List (String × NpArray))
    (rd : RunDir) : Except PyErr (RunDir × String) :=
  if fmt = "npz" then
    .ok ({ rd with files := upsertA "arrays.npz" (.npzFile arrays) rd.files }, "arrays.npz")
  else if fmt = "zarr" then
    if c.zarr then
      .ok ({ rd with files := upsertA "arrays.zarr" (.zarrDir arrays) rd.files }, "arrays.zarr")
    else .error (.runtimeError "zarr support requires installing the zarr package")
  else if fmt = "hdf5" then
    if c.h5py then
      .ok ({ rd with files := upsertA "arrays.h5" (.h5File arrays) rd.files }, "arrays.h5")
    else .error (.runtimeError "hdf5 support requires installing h5py")
  else .error (.valueError ("Unsupported arrays format: " ++ fmt))

/-- `SimCache._load_arrays`: dispatch on the encoding name and read the
file back; an unregistered name raises `ValueError` before any read, a
missing file or an on-disk encoding not matching the requested one is a
read error. -/
def load_arrays (c : Codecs) (fmt : String) (rd : RunDir) (path : String) :
    Except PyErr (List (String × NpArray)) :=
  if fmt = "npz" then
    match lookupA path rd.files with
    | some (.npzFile arrays) => .ok arrays
    | some _ => .error .badFile
    | Option.none => .error .fileNotFound
  else if fmt = "zarr" then
    if c.zarr then
      match lookupA path rd.files with
      | some (.zarrDir arrays) => .ok arrays
      | some _ => .error .badFile
      | Option.none => .error .fileNotFound
    else .error (.runtimeError "zarr support requires installing the zarr package")
  else if fmt = "hdf5" then
    if c.h5py then
      match lookupA path rd.files with
      | some (.h5File arrays) => .ok arrays
      | some _ => .error .badFile
      | Option.none => .error .fileNotFound
    else .error (.runtimeError "hdf5 support requires installing h5py")
  else .error (.valueError ("Unsupported arrays format: " ++ fmt))

/-- `SimCache._load_manifest`: the parsed document, or an empty index when
the file is absent. -/
def load_manifest (st : Store) : List (String × MEntry) :=
  match st.manifest with
  | some m => m
  | Option.none => []

/-- `SimCache._update_manifest`: read-modify-write of the whole index,
overwriting the single entry of `run_id`. -/
def update_manifest (st : Store) (run_id : String) (meta : Metadata) : Store :=
  let manifest := load_manifest st
  let entry : MEntry := { timestamp := meta.timestamp.orNull, tags := .lst meta.tags.orEmpty }
  { st with manifest := some (upsertA run_id entry manifest) }

/-- `SimCache.save`: create the run directory if needed, write the
artifacts, enrich and write the metadata, then update the manifest. -/
def save (c : Codecs) (st : Store) (run_id : String)
    (arrays : List (String × NpArray)) (metadata : Metadata) (fmt : String) :
    Except PyErr (Store × String) := do
  let rd0 := (lookupA run_id st.runs).getD ⟨.absent, []⟩
  let (rd1, apath) ← save_arrays c fmt arrays rd0
  let meta2 := { metadata with
    run_id := some run_id, arrays_format := some fmt, arrays_path := some apath }
  let rd2 := { rd1 with meta := .ok meta2 }
  let st1 := { st with runs := upsertA run_id rd2 st.runs }
  .ok (update_manifest st1 run_id meta2, run_id)

/-- The `{"arrays": ..., "metadata": ...}` record returned by `load`. -/
structure LoadResult where
  arrays : List (String × NpArray)
  metadata : Metadata
deriving DecidableEq, Repr

/-- `SimCache.load`: read `metadata.json`, then the artifact file it
records. -/
def load (c : Codecs) (st : Store) (run_id : String) : Except PyErr LoadResult := do
  match lookupA run_id st.runs with
  | Option.none => .error .fileNotFound
  | some rd =>
    match rd.meta with
    | .ok m => do
      let apath ← match m.arrays_path with
        | some p => Except.ok p
        | Option.none => .error .keyError
      let fmt ← match m.arrays_format with
        | some f => Except.ok f
        | Option.none => .error .keyError
      let arrays ← load_arrays c fmt rd apath
      .ok ⟨arrays, m⟩
    | .unreadable => .error .jsonError
    | .absent => .error .fileNotFound

/-- The partial comparison of two `list_runs` records by
`item.get("timestamp", "")`; comparing a null timestamp raises. -/
def tsLt (a b : RunRec) : Option Bool :=
  match a.timestamp.sortKey, b.timestamp.sortKey with
  | some s, some t => some (pyStrLt s t)
  | _, _ => Option.none

/-- `SimCache.list_runs`: from the manifest when it has entries (sorted by
timestamp, a raising comparison propagating as `TypeError`), otherwise a
best-effort scan of the run directories in name order, an unreadable
metadata file yielding a null-timestamp, empty-tags record. -/
def list_runs (st : Store) : Except PyErr (List RunRec) :=
  let runs := (load_manifest st).map fun kv => RunRec.mk kv.1 kv.2.timestamp kv.2.tags
  if runs.isEmpty then
    .ok ((List.insertionSort keyLeStr st.runs).map fun kv =>
      match kv.2.meta with
      | .ok m => RunRec.mk kv.1 m.timestamp.orNull m.tags.orEmptyList
      | _ => RunRec.mk kv.1 .null (.lst []))
  else
    match osort tsLt runs with
    | some sorted => .ok sorted
    | Option.none => .error .typeError

/-- The total `load_latest` sort key. -/
def llKey (r : RunRec) : String := r.timestamp.orEmpty

/-- Ascending order on candidates by `item.get("timestamp") or ""`. -/
def llLe (a b : RunRec) : Prop := pyStrLt (llKey b) (llKey a) = false

instance : DecidableRel llLe := fun a b =>
  instDecidableEqBool (pyStrLt (llKey b) (llKey a)) false

/-- The element a stable ascending sort puts last: the latest-listed
element attaining the maximal key (on a tie the later element wins). -/
def lastMaxBy (key : α → String) : List α → Option α
  | [] => Option.none
  | x :: xs =>
    match lastMaxBy key xs with
    | Option.none => some x
    | some a => some (if pyStrLt (key a) (key x) then x else a)

/-- Every character is a lowercase hexadecimal digit. -/
def isLowerHexStr (s : String) : Bool := s.toList.all fun c => hexDigits.contains c

/-- The `list_runs` manifest sort key with the raising null case collapsed
to its default (used only to state sortedness where no null occurs). -/
def tsKeyD (r : RunRec) : String := r.timestamp.sortKey.getD ""

/-- `SimCache.load_latest`: filter `list_runs()` to records carrying the
tag, return `None` when there are none, otherwise load the last record of
the stable ascending sort by timestamp. -/
def load_latest (c : Codecs) (st : Store) (tag : String) :
    Except PyErr (Option LoadResult) := do
  let rs ← list_runs st
  let candidates := rs.filter fun r => r.tags.orEmpty.contains tag
  match candidates with
  | [] => .ok Option.none
  | _ =>
    match (List.insertionSort llLe candidates).getLast? with
    | some chosen => (load c st chosen.run_id).map some
    | Option.none => .ok Option.none

/-! ## Lemmas: code-point string order -/

theorem charEq_of_toNat {c d : Char} (h : c.toNat = d.toNat) : c = d :=
  Char.eq_of_val_eq (UInt32.ext h)

theorem strLtb_irrefl : ∀ s : List Char, strLtb s s = false
  | [] => rfl
  | _ :: t => by simp [strLtb, strLtb_irrefl t]

theorem strLtb_asymm : ∀ {a b : List Char}, strLtb a b = true → strLtb b a = false := by
  intro a
  induction a with
  | nil => intro b h; cases b with
    | nil => simp [strLtb] at h
    | cons d u => simp [strLtb]
  | cons c t ih =>
    intro b h
    cases b with
    | nil => simp [strLtb] at h
    | cons d u =>
      simp only [strLtb] at h ⊢
      by_cases hc : c.toNat = d.toNat
      · rw [if_pos hc] at h
        rw [if_pos hc.symm]
        exact ih h
      · rw [if_neg hc] at h
        rw [if_neg fun hh => hc hh.symm]
        simp only [decide_eq_true_eq] at h
        simp only [decide_eq_false_iff_not]
        omega

theorem strLtb_trans : ∀ {a b c : List Char},
    strLtb a b = true → strLtb b c = true → strLtb a c = true := by
  intro a
  induction a with
  | nil =>
    intro b c hab hbc
    cases b with
    | nil => simp [strLtb] at hab
    | cons d u =>
      cases c with
      | nil => simp [strLtb] at hbc
      | cons e v => simp [strLtb]
  | cons x t ih =>
    intro b c hab hbc
    cases b with
    | nil => simp [strLtb] at hab
    | cons d u =>
      cases c with
      | nil => simp [strLtb] at hbc
      | cons e v =>
        simp only [strLtb] at hab hbc ⊢
        by_cases h1 : x.toNat = d.toNat <;> by_cases h2 : d.toNat = e.toNat
        · rw [if_pos h1] at hab; rw [if_pos h2] at hbc
          rw [if_pos (h1.trans h2)]
          exact ih hab hbc
        · rw [if_pos h1] at hab; rw [if_neg h2] at hbc
          rw [if_neg (h1 ▸ h2)]
          exact h1 ▸ hbc
        · rw [if_neg h1] at hab; rw [if_pos h2] at hbc
          rw [if_neg (h2 ▸ h1)]
          exact h2 ▸ hab
        · rw [if_neg h1] at hab; rw [if_neg h2] at hbc
          simp only [decide_eq_true_eq] at hab hbc
          have hxe : x.toNat < e.toNat := hab.trans hbc
          rw [if_neg (by omega)]
          simp [hxe]

theorem strLtb_conn : ∀ {a b : List Char},
    strLtb a b = false → strLtb b a = false → a = b := by
  intro a
  induction a with
  | nil =>
    intro b hab _
    cases b with
    | nil => rfl
    | cons d u => simp [strLtb] at hab
  | cons c t ih =>
    intro b hab hba
    cases b with
    | nil => simp [strLtb] at hba
    | cons d u =>
      simp only [strLtb] at hab hba
      by_cases hc : c.toNat = d.toNat
      · rw [if_pos hc] at hab
        rw [if_pos hc.symm] at hba
        rw [charEq_of_toNat hc, ih hab hba]
      · rw [if_neg hc] at hab
        rw [if_neg fun hh => hc hh.symm] at hba
        simp only [decide_eq_false_iff_not] at hab hba
        omega

theorem pyStrLt_irrefl (s : String) : pyStrLt s s = false := strLtb_irrefl _

theorem pyStrLt_asymm {a b : String} (h : pyStrLt a b = true) : pyStrLt b a = false :=
  strLtb_asymm h

theorem pyStrLt_trans {a b c : String} (h₁ : pyStrLt a b = true) (h₂ : pyStrLt b c = true) :
    pyStrLt a c = true := strLtb_trans h₁ h₂

theorem pyStrLt_conn {a b : String} (h₁ : pyStrLt a b = false) (h₂ : pyStrLt b a = false) :
    a = b := by
  have := strLtb_conn h₁ h₂
  cases a; cases b
  simpa [pyStrLt, String.toList] using congrArg String.mk this

/-- Not-less-than is transitive. -/
theorem pyStrLt_nlt_trans {a b c : String} (h₁ : pyStrLt a b = false)
    (h₂ : pyStrLt b c = false) : pyStrLt a c = false := by
  by_cases h : pyStrLt a c = true
  · by_cases hba : pyStrLt b a = true
    · exact absurd (pyStrLt_trans hba h) (by simp [h₂])
    · have := pyStrLt_conn h₁ (by simpa using hba)
      subst this
      simp [h] at h₂
  · simpa using h

/-- Totality: one direction of strict comparison fails. -/
theorem pyStrLt_total (a b : String) : pyStrLt a b = false ∨ pyStrLt b a = false := by
  by_cases h : pyStrLt a b = true
  · exact Or.inr (pyStrLt_asymm h)
  · exact Or.inl (by simpa using h)

instance : IsTotal (String × β) keyLeStr :=
  ⟨fun a b => by
    unfold keyLeStr
    rcases pyStrLt_total b.1 a.1 with h | h
    · exact Or.inl h
    · exact Or.inr h⟩

instance : IsTrans (String × β) keyLeStr :=
  ⟨fun _ _ _ h₁ h₂ => pyStrLt_nlt_trans h₂ h₁⟩

instance : IsTotal RunRec llLe :=
  ⟨fun a b => by
    unfold llLe
    rcases pyStrLt_total (llKey b) (llKey a) with h | h
    · exact Or.inl h
    · exact Or.inr h⟩

instance : IsTrans RunRec llLe :=
  ⟨fun _ _ _ h₁ h₂ => pyStrLt_nlt_trans h₂ h₁⟩

/-! ## Lemmas: association lists -/

theorem lookupA_upsertA_self (k : String) (v : β) :
    ∀ l : List (String × β), lookupA k (upsertA k v l) = some v := by
  intro l
  induction l with
  | nil => simp [upsertA, lookupA]
  | cons e t ih =>
    by_cases h : e.1 = k
    · simp [upsertA, lookupA, h]
    · simp [upsertA, lookupA, h, ih]

theorem lookupA_upsertA_ne (k k₂ : String) (v : β) (hne : k₂ ≠ k) :
    ∀ l : List (String × β), lookupA k₂ (upsertA k v l) = lookupA k₂ l := by
  intro l
  induction l with
  | nil => simp [upsertA, lookupA, Ne.symm hne]
  | cons e t ih =>
    by_cases h : e.1 = k
    · simp [upsertA, lookupA, h, Ne.symm hne]
    · simp [upsertA, lookupA, h, ih]

/-! ## Lemmas: digest shape -/

theorem natToBytesBE_length (k : Nat) : ∀ n, (natToBytesBE k n).length = k := by
  induction k with
  | zero => intro n; rfl
  | succ k ih => intro n; simp [natToBytesBE, ih]

theorem flatMap_byteHex_length (bs : List Nat) : (bs.flatMap byteHex).length = 2 * bs.length := by
  induction bs with
  | nil => rfl
  | cons b t ih => simp [byteHex, ih] at ih ⊢; omega

theorem sha256Bytes_length (msg : List Nat) : (sha256Bytes msg).length = 32 := by
  unfold sha256Bytes
  rcases shaBlocks ((shaPad msg).length / 64) shaH0 (shaPad msg) with ⟨a, b, c, d, e, f, g, h⟩
  simp [natToBytesBE_length]

theorem sha256Hex_length (msg : List Nat) : (sha256Hex msg).length = 64 := by
  have h : (sha256Hex msg).length = ((sha256Bytes msg).flatMap byteHex).length := rfl
  rw [h, flatMap_byteHex_length, sha256Bytes_length]

theorem hexDigit_mem {n : Nat} (h : n < 16) : hexDigit n ∈ hexDigits := by
  interval_cases n <;> decide

theorem byteHex_mem {b : Nat} {c : Char} (h : c ∈ byteHex b) : c ∈ hexDigits := by
  simp only [byteHex, List.mem_cons, List.mem_singleton, List.not_mem_nil, or_false] at h
  rcases h with h | h <;> subst h <;> exact hexDigit_mem (by omega)

theorem sha256Hex_hex (msg : List Nat) : isLowerHexStr (sha256Hex msg) = true := by
  simp only [isLowerHexStr, sha256Hex, bytesToHex, List.all_eq_true]
  intro c hc
  have hc₂ : c ∈ (sha256Bytes msg).flatMap byteHex := hc
  rw [List.mem_flatMap] at hc₂
  obtain ⟨b, _, hb⟩ := hc₂
  simpa using byteHex_mem hb

/-- The shape of every digest `hash_spec` can return: 64 characters, all
lowercase hex. -/
theorem hash_spec_shape (spec : PyVal) (j : JVal) (h : normalize spec = some j) :
    (hash_spec spec).map String.length = some 64 ∧
    (hash_spec spec).map isLowerHexStr = some true := by
  simp [hash_spec, h, sha256Hex_length, sha256Hex_hex]

theorem flatMap_singleton_map (l : List α) (f : α → β) :
    (l.flatMap fun x => [f x]) = l.map f := by
  induction l with
  | nil => rfl
  | cons x t ih => simp [List.flatMap_cons, ih]

/-! ## Claim C4 -/

/-- C4: for the grid `params = [a: [1, 2], b: [10, 20]]`, `seeds = [0, 1]`,
the sweep enumerator yields exactly the eight pairs in nested-loop order —
axes in declaration order, later axes varying fastest, seeds innermost —
with no duplicates and no omissions; enumeration is a pure function of the
grid, so repeated enumeration yields the same sequence.  The final
conjunct states the general two-axis law: the later axis varies fastest. -/
theorem thm_C4 :
    (iter_sweep (Grid.mk (some [("a", [(1 : Int), 2]), ("b", [10, 20])]) (some [0, 1]) Option.none) =
      [([("a", 1), ("b", 10)], 0), ([("a", 1), ("b", 10)], 1),
       ([("a", 1), ("b", 20)], 0), ([("a", 1), ("b", 20)], 1),
       ([("a", 2), ("b", 10)], 0), ([("a", 2), ("b", 10)], 1),
       ([("a", 2), ("b", 20)], 0), ([("a", 2), ("b", 20)], 1)] ∧
     (iter_sweep (Grid.mk (some [("a", [(1 : Int), 2]), ("b", [10, 20])])
        (some [0, 1]) Option.none)).Nodup) ∧
    ∀ (α : Type) (k₁ k₂ : String) (vs₁ vs₂ : List α),
      expand_grid [(k₁, vs₁), (k₂, vs₂)] =
        vs₁.flatMap fun v₁ => vs₂.map fun v₂ => [(k₁, v₁), (k₂, v₂)] := by
  refine ⟨by decide, ?_⟩
  intro α k₁ k₂ vs₁ vs₂
  simp only [expand_grid, listProd, List.flatMap_map, List.map_flatMap, List.map_map,
    Function.comp, List.zip_cons_cons, List.map_cons, List.map_nil, List.zip_nil_right]
  congr 1
  funext a
  exact flatMap_singleton_map vs₂ fun b => [(k₁, a), (k₂, b)]

/-! ## Claim C10 -/

/-- C10: a grid with no params key (or an empty params mapping) and
neither a seeds nor a seed key enumerates exactly one pair: the empty
parameter mapping with seed 0. -/
theorem thm_C10 {α : Type} (g : Grid α)
    (hp : g.params = Option.none ∨ g.params = some [])
    (hs : g.seeds = Option.none) (h1 : g.seed = Option.none) :
    iter_sweep g = [([], 0)] := by
  obtain ⟨p, sd, s1⟩ := g
  dsimp at hp hs h1
  subst hs h1
  rcases hp with h | h <;> subst h <;> rfl

theorem thm_C10_witness :
    iter_sweep (@Grid.mk Int Option.none Option.none Option.none) = [([], 0)] :=
  thm_C10 _ (Or.inl rfl) rfl rfl

/-! ## Claim C8 -/

/-- C8: an encoding name outside npz, zarr, hdf5 makes both the artifact
writer and the artifact reader (and hence a whole save) raise `ValueError`
immediately — no artifact is written or read and no other encoding is
silently substituted. -/
theorem thm_C8 (c : Codecs) (st : Store) (run_id : String) (fmt : String)
    (arrays : List (String × NpArray)) (metadata : Metadata) (rd : RunDir) (path : String)
    (h : ¬ (fmt = "npz" ∨ fmt = "zarr" ∨ fmt = "hdf5")) :
    save_arrays c fmt arrays rd = .error (.valueError ("Unsupported arrays format: " ++ fmt)) ∧
    load_arrays c fmt rd path = .error (.valueError ("Unsupported arrays format: " ++ fmt)) ∧
    save c st run_id arrays metadata fmt =
      .error (.valueError ("Unsupported arrays format: " ++ fmt)) := by
  push_neg at h
  obtain ⟨h1, h2, h3⟩ := h
  have hsa : save_arrays c fmt arrays rd =
      .error (.valueError ("Unsupported arrays format: " ++ fmt)) := by
    simp [save_arrays, h1, h2, h3]
  refine ⟨hsa, by simp [load_arrays, h1, h2, h3], ?_⟩
  simp only [save]
  rw [show save_arrays c fmt arrays ((lookupA run_id st.runs).getD ⟨.absent, []⟩) =
    .error (.valueError ("Unsupported arrays format: " ++ fmt)) by simp [save_arrays, h1, h2, h3]]
  rfl

theorem thm_C8_witness :
    save_arrays ⟨true, true⟩ "pickle" [] ⟨.absent, []⟩ =
      .error (.valueError "Unsupported arrays format: pickle") ∧
    load_arrays ⟨true, true⟩ "pickle" ⟨.absent, []⟩ "arrays.npz" =
      .error (.valueError "Unsupported arrays format: pickle") ∧
    save ⟨true, true⟩ ⟨Option.none, []⟩ "r1" [] ⟨.str "t", .lst [], Option.none, Option.none, Option.none⟩ "pickle" =
      .error (.valueError "Unsupported arrays format: pickle") :=
  thm_C8 ⟨true, true⟩ ⟨Option.none, []⟩ "r1" "pickle" [] _ ⟨.absent, []⟩ "arrays.npz"
    (by decide)

/-! ## Claim C3 -/

/-- C3: for every registered encoding (its library available) and every
artifact set — zero, one or many named arrays, empty arrays included —
loading what save wrote returns exactly the arrays written: values, shapes
and element types round-trip losslessly. -/
theorem thm_C3 (c : Codecs) (fmt : String) (arrays : List (String × NpArray)) (rd : RunDir)
    (h : fmt = "npz" ∨ (fmt = "zarr" ∧ c.zarr = true) ∨ (fmt = "hdf5" ∧ c.h5py = true)) :
    ∃ rd₂ path, save_arrays c fmt arrays rd = .ok (rd₂, path) ∧
      load_arrays c fmt rd₂ path = .ok arrays := by
  rcases h with h | ⟨h, hz⟩ | ⟨h, hh⟩ <;> subst h
  · exact ⟨_, _, rfl, by simp [load_arrays, lookupA_upsertA_self]⟩
  · refine ⟨{ rd with files := upsertA "arrays.zarr" (.zarrDir arrays) rd.files },
      "arrays.zarr", ?_, ?_⟩
    · simp [save_arrays, hz]
    · simp [load_arrays, hz, lookupA_upsertA_self]
  · refine ⟨{ rd with files := upsertA "arrays.h5" (.h5File arrays) rd.files },
      "arrays.h5", ?_, ?_⟩
    · simp [save_arrays, hh]
    · simp [load_arrays, hh, lookupA_upsertA_self]

theorem thm_C3_witness :
    (∃ rd₂ path, save_arrays ⟨false, false⟩ "npz" [] ⟨.absent, []⟩ = .ok (rd₂, path) ∧
      load_arrays ⟨false, false⟩ "npz" rd₂ path = .ok []) ∧
    (∃ rd₂ path, save_arrays ⟨true, false⟩ "zarr"
        [("u", ⟨"float64", [2, 2], [1, 2, 3, 4]⟩), ("empty", ⟨"int32", [0], []⟩)]
        ⟨.absent, []⟩ = .ok (rd₂, path) ∧
      load_arrays ⟨true, false⟩ "zarr" rd₂ path =
        .ok [("u", ⟨"float64", [2, 2], [1, 2, 3, 4]⟩), ("empty", ⟨"int32", [0], []⟩)]) ∧
    (∃ rd₂ path, save_arrays ⟨false, true⟩ "hdf5" [("a", ⟨"int64", [1], [7]⟩)] ⟨.absent, []⟩ =
        .ok (rd₂, path) ∧
      load_arrays ⟨false, true⟩ "hdf5" rd₂ path = .ok [("a", ⟨"int64", [1], [7]⟩)]) :=
  ⟨thm_C3 _ _ _ _ (Or.inl rfl),
   thm_C3 _ _ _ _ (Or.inr (Or.inl ⟨rfl, rfl⟩)),
   thm_C3 _ _ _ _ (Or.inr (Or.inr ⟨rfl, rfl⟩))⟩

/-! ## Claim C9 -/

/-- C9: a successful save rewrites the manifest by overwriting only the
entry of the saved run id; the entry of every other run id is unchanged. -/
theorem thm_C9 (c : Codecs) (st : Store) (run_id other : String)
    (arrays : List (String × NpArray)) (metadata : Metadata) (fmt : String)
    (st₂ : Store) (p : String)
    (hsave : save c st run_id arrays metadata fmt = .ok (st₂, p))
    (hne : other ≠ run_id) :
    lookupA other (load_manifest st₂) = lookupA other (load_manifest st) := by
  simp only [save, bind, Except.bind] at hsave
  cases hsa : save_arrays c fmt arrays ((lookupA run_id st.runs).getD ⟨.absent, []⟩) with
  | error e => rw [hsa] at hsave; exact absurd hsave (by simp)
  | ok pr =>
    obtain ⟨rd₁, apath⟩ := pr
    rw [hsa] at hsave
    simp only [Except.ok.injEq, Prod.mk.injEq] at hsave
    obtain ⟨h1, -⟩ := hsave
    rw [← h1]
    simp [update_manifest, load_manifest, lookupA_upsertA_ne _ _ _ hne]

theorem thm_C9_witness :
    lookupA "old" (load_manifest
      ((save ⟨true, true⟩
        ⟨some [("old", ⟨.str "t0", .lst ["keep"]⟩)], []⟩ "new" []
        ⟨.str "t1", .lst [], Option.none, Option.none, Option.none⟩ "npz").toOption.map
          Prod.fst |>.getD ⟨Option.none, []⟩)) =
    lookupA "old" (load_manifest (⟨some [("old", ⟨.str "t0", .lst ["keep"]⟩)], []⟩ : Store)) := by
  have h := thm_C9 ⟨true, true⟩ ⟨some [("old", ⟨.str "t0", .lst ["keep"]⟩)], []⟩ "new" "old"
    [] ⟨.str "t1", .lst [], Option.none, Option.none, Option.none⟩ "npz"
    _ _ rfl (by decide)
  exact h

/-! ## Claim C2 -/

/-- C2 (amended): for every run specification whose canonicalization
succeeds, the identifier returned by the store's id-derivation path
(`compute_run_id`, delegating to `hash_spec`) is the full 64-character
lowercase hexadecimal SHA-256 digest — it is not truncated.  The
12-character truncation exists only in the legacy `make_run_id` helper
(final conjunct), which the live path does not call. -/
theorem thm_C2 (params env : PyVal) (seed : Int) (code_version : Option String)
    (j : JVal) (h : normalize (build_spec params seed code_version env) = some j) :
    (compute_run_id params seed code_version env).map String.length = some 64 ∧
    (compute_run_id params seed code_version env).map isLowerHexStr = some true ∧
    ∀ spec : JVal, (make_run_id spec).length = 12 := by
  refine ⟨(hash_spec_shape _ _ h).1, (hash_spec_shape _ _ h).2, ?_⟩
  intro spec
  rw [make_run_id, String.take_eq]
  show ((sha256Hex (utf8 (pdumps escCharNA (canon spec)))).data.take 12).length = 12
  rw [List.length_take]
  have h₂ := sha256Hex_length (utf8 (pdumps escCharNA (canon spec)))
  have h₃ : (sha256Hex (utf8 (pdumps escCharNA (canon spec)))).data.length = 64 := h₂
  omega

/-- C2 counterexample: at a concrete run specification the store's
id-derivation path returns a 64-character identifier, refuting the claimed
truncation to a 12-character prefix. -/
theorem cex_C2 :
    (compute_run_id (.dict [(.ks "steps", .int 5)]) 3 Option.none
        (.dict [(.ks "python_version", .str "3.11")])).map String.length = some 64 ∧
    (compute_run_id (.dict [(.ks "steps", .int 5)]) 3 Option.none
        (.dict [(.ks "python_version", .str "3.11")])).map String.length ≠ some 12 := by
  have h := hash_spec_shape (build_spec (.dict [(.ks "steps", .int 5)]) 3 Option.none
    (.dict [(.ks "python_version", .str "3.11")])) _ rfl
  exact ⟨h.1, by rw [show compute_run_id (.dict [(.ks "steps", .int 5)]) 3 Option.none
    (.dict [(.ks "python_version", .str "3.11")]) = hash_spec (build_spec
      (.dict [(.ks "steps", .int 5)]) 3 Option.none
      (.dict [(.ks "python_version", .str "3.11")])) from rfl, h.1]; simp⟩

theorem thm_C2_witness :
    (compute_run_id (.dict [(.ks "a", .int 1)]) 0 (some "abc123")
        (.dict [(.ks "python_version", .str "3.11")])).map String.length = some 64 ∧
    (compute_run_id (.dict [(.ks "a", .int 1)]) 0 (some "abc123")
        (.dict [(.ks "python_version", .str "3.11")])).map isLowerHexStr = some true :=
  ⟨(thm_C2 (.dict [(.ks "a", .int 1)]) (.dict [(.ks "python_version", .str "3.11")])
      0 (some "abc123") _ rfl).1,
   (thm_C2 (.dict [(.ks "a", .int 1)]) (.dict [(.ks "python_version", .str "3.11")])
      0 (some "abc123") _ rfl).2.1⟩

/-! ## Lemmas: the partial stable insertion sort -/

section OSort

variable {lt : α → α → Option Bool}

/-- Successful insertion produces a permutation of the element and list. -/
theorem oInsert_perm : ∀ {l m : List α} {x : α}, oInsert lt x l = some m → m.Perm (x :: l) := by
  intro l
  induction l with
  | nil => intro m x h; cases h; exact List.Perm.refl _
  | cons y ys ih =>
    intro m x h
    simp only [oInsert] at h
    cases hc : lt x y with
    | none => rw [hc] at h; cases h
    | some b =>
      rw [hc] at h
      cases b with
      | true => simp only at h; cases h; exact List.Perm.refl _
      | false =>
        simp only [Option.map_eq_some'] at h
        obtain ⟨m₁, hm₁, rfl⟩ := h
        exact ((ih hm₁).cons y).trans (List.Perm.swap x y ys)

/-- Successful insertion into a sorted list keeps it sorted; the
hypotheses are the order laws on the elements involved. -/
theorem oInsert_sorted {x : α} : ∀ {l m : List α},
    (∀ y ∈ l, (lt y x).isSome) →
    (∀ y ∈ l, lt x y = some true → lt y x = some false) →
    (∀ w ∈ l, ∀ y ∈ l, lt w x = some true → lt x y = some true → lt w y = some true) →
    l.Pairwise (fun a b => lt b a = some false) →
    oInsert lt x l = some m → m.Pairwise (fun a b => lt b a = some false) := by
  intro l
  induction l with
  | nil =>
    intro m _ _ _ _ h
    cases h
    simp
  | cons e es ih =>
    intro m hsome hasym htrans hp h
    simp only [oInsert] at h
    cases hc : lt x e with
    | none => rw [hc] at h; cases h
    | some b =>
      rw [hc] at h
      cases b with
      | true =>
        simp only at h
        cases h
        rw [List.pairwise_cons] at hp ⊢
        refine ⟨?_, List.pairwise_cons.mpr hp⟩
        intro w hw
        rcases List.mem_cons.mp hw with rfl | hw
        · exact hasym _ (by simp) hc
        · have hwe : lt w e = some false := hp.1 w hw
          have hs : (lt w x).isSome := hsome w (by simp [hw])
          cases hwx : lt w x with
          | none => rw [hwx] at hs; cases hs
          | some bb =>
            cases bb with
            | false => rfl
            | true =>
              have := htrans w (by simp [hw]) e (by simp) hwx hc
              rw [this] at hwe
              cases hwe
      | false =>
        simp only [Option.map_eq_some'] at h
        obtain ⟨m₁, hm₁, rfl⟩ := h
        rw [List.pairwise_cons] at hp
        have hm₁p : m₁.Pairwise (fun a b => lt b a = some false) :=
          ih (fun z hz => hsome z (by simp [hz]))
            (fun z hz ht => hasym z (by simp [hz]) ht)
            (fun w hw z hz h1 h2 => htrans w (by simp [hw]) z (by simp [hz]) h1 h2)
            hp.2 hm₁
        rw [List.pairwise_cons]
        refine ⟨?_, hm₁p⟩
        intro z hz
        have hz₂ : z ∈ x :: es := (oInsert_perm hm₁).mem_iff.mp hz
        rcases List.mem_cons.mp hz₂ with rfl | hz₂
        · exact hc
        · exact hp.1 z hz₂

/-- Insertion succeeds when the new element is comparable with every
element of the list. -/
theorem oInsert_some {x : α} : ∀ {l : List α},
    (∀ y ∈ l, (lt x y).isSome) → ∃ m, oInsert lt x l = some m := by
  intro l
  induction l with
  | nil => exact fun _ => ⟨[x], rfl⟩
  | cons y ys ih =>
    intro hsome
    simp only [oInsert]
    cases hc : lt x y with
    | none =>
      have := hsome y (by simp)
      rw [hc] at this
      cases this
    | some b =>
      cases b with
      | true => exact ⟨x :: y :: ys, rfl⟩
      | false =>
        obtain ⟨m, hm⟩ := ih fun z hz => hsome z (by simp [hz])
        exact ⟨y :: m, by rw [hm]; rfl⟩

/-- The combined specification of the sort: under the order laws on the
input elements, the sort succeeds and returns a sorted permutation. -/
theorem osortAux_spec : ∀ (l acc : List α),
    (∀ a ∈ acc ++ l, ∀ b ∈ acc ++ l, (lt a b).isSome) →
    (∀ a ∈ acc ++ l, ∀ b ∈ acc ++ l, lt a b = some true → lt b a = some false) →
    (∀ a ∈ acc ++ l, ∀ b ∈ acc ++ l, ∀ c ∈ acc ++ l,
      lt a b = some true → lt b c = some true → lt a c = some true) →
    acc.Pairwise (fun a b => lt b a = some false) →
    ∃ m, osortAux lt acc l = some m ∧ m.Perm (acc ++ l) ∧
      m.Pairwise (fun a b => lt b a = some false) := by
  intro l
  induction l with
  | nil =>
    intro acc _ _ _ hp
    exact ⟨acc, rfl, by simp, hp⟩
  | cons x t ih =>
    intro acc hsome hasym htrans hp
    have hxmem : x ∈ acc ++ x :: t := by simp
    obtain ⟨m₁, hm₁⟩ := @oInsert_some _ lt x acc
      (fun y hy => hsome x hxmem y (by simp [hy]))
    have hperm₁ : m₁.Perm (x :: acc) := oInsert_perm hm₁
    have hm₁p : m₁.Pairwise (fun a b => lt b a = some false) :=
      oInsert_sorted
        (fun y hy => hsome y (by simp [hy]) x hxmem)
        (fun y hy ht => hasym x hxmem y (by simp [hy]) ht)
        (fun w hw y hy h1 h2 =>
          htrans w (by simp [hw]) x hxmem y (by simp [hy]) h1 h2)
        hp hm₁
    have hmemiff : ∀ z, z ∈ m₁ ++ t ↔ z ∈ acc ++ x :: t := by
      intro z
      simp [hperm₁.mem_iff]
      tauto
    obtain ⟨m, hm, hmp, hms⟩ := ih m₁
      (fun a ha b hb => hsome a ((hmemiff a).mp ha) b ((hmemiff b).mp hb))
      (fun a ha b hb => hasym a ((hmemiff a).mp ha) b ((hmemiff b).mp hb))
      (fun a ha b hb c hc => htrans a ((hmemiff a).mp ha) b ((hmemiff b).mp hb)
        c ((hmemiff c).mp hc))
      hm₁p
    refine ⟨m, ?_, ?_, hms⟩
    · simp only [osortAux, hm₁]
      exact hm
    · exact hmp.trans ((hperm₁.append_right t).trans List.perm_middle.symm)

/-- `osort` under the order laws: a sorted permutation is returned. -/
theorem osort_spec {l : List α}
    (hsome : ∀ a ∈ l, ∀ b ∈ l, (lt a b).isSome)
    (hasym : ∀ a ∈ l, ∀ b ∈ l, lt a b = some true → lt b a = some false)
    (htrans : ∀ a ∈ l, ∀ b ∈ l, ∀ c ∈ l,
      lt a b = some true → lt b c = some true → lt a c = some true) :
    ∃ m, osort lt l = some m ∧ m.Perm l ∧
      m.Pairwise (fun a b => lt b a = some false) := by
  have h := @osortAux_spec _ lt l []
    (by simpa using hsome) (by simpa using hasym) (by simpa using htrans)
    (List.Pairwise.nil)
  simpa [osort] using h

/-- Two sorted permutations of antisymmetric elements coincide. -/
theorem perm_sorted_unique {P : α → α → Prop} :
    ∀ {l₁ l₂ : List α}, l₁.Perm l₂ → l₁.Pairwise P → l₂.Pairwise P →
    (∀ a ∈ l₁, ∀ b ∈ l₁, P a b → P b a → a = b) → l₁ = l₂ := by
  intro l₁
  induction l₁ with
  | nil => intro l₂ hp _ _ _; simpa using hp.symm.eq_nil
  | cons a t₁ ih =>
    intro l₂ hp hp₁ hp₂ hanti
    cases l₂ with
    | nil => simpa using hp.eq_nil
    | cons b t₂ =>
      have hab : a = b := by
        by_contra hne
        have ha₂ : a ∈ b :: t₂ := hp.mem_iff.mp (by simp)
        have hb₁ : b ∈ a :: t₁ := hp.symm.mem_iff.mp (by simp)
        have ha₂' : a ∈ t₂ := by
          rcases List.mem_cons.mp ha₂ with h | h
          · exact absurd h hne
          · exact h
        have hb₁' : b ∈ t₁ := by
          rcases List.mem_cons.mp hb₁ with h | h
          · exact absurd h.symm hne
          · exact h
        have hPba : P b a := (List.pairwise_cons.mp hp₂).1 a ha₂'
        have hPab : P a b := (List.pairwise_cons.mp hp₁).1 b hb₁'
        exact hne (hanti a (by simp) b (by simp [hb₁']) hPab hPba)
      subst hab
      have ht := hp.cons_inv
      have := ih ht (List.pairwise_cons.mp hp₁).2 (List.pairwise_cons.mp hp₂).2
        (fun x hx y hy => hanti x (by simp [hx]) y (by simp [hy]))
      rw [this]

end OSort

/-! ## Claim C5 -/

theorem sortKey_isSome {t : TsVal} (h : t ≠ TsVal.null) : ∃ s, t.sortKey = some s := by
  cases t with
  | absent => exact ⟨"", rfl⟩
  | null => exact absurd rfl h
  | str s => exact ⟨s, rfl⟩

/-- C5 (amended): when the manifest index is non-empty and every entry's
timestamp value is a string or the key is absent (the empty-string `get`
default then sorts it first), `list_runs` returns exactly the manifest's
records sorted by timestamp ascending.  A null timestamp value — which the
manifest writer stores whenever the saved metadata lacks a timestamp —
instead makes `list_runs` raise a `TypeError` once the manifest has a
second entry (see the counterexample); it does not sort first. -/
theorem thm_C5 (st : Store) (entries : List (String × MEntry))
    (hm : load_manifest st = entries) (hne : entries ≠ [])
    (hts : ∀ e ∈ entries, e.2.timestamp ≠ TsVal.null) :
    ∃ recs, list_runs st = .ok recs ∧
      recs.Perm (entries.map fun kv => RunRec.mk kv.1 kv.2.timestamp kv.2.tags) ∧
      recs.Pairwise fun a b => pyStrLt (tsKeyD b) (tsKeyD a) = false := by
  set runs := entries.map fun kv => RunRec.mk kv.1 kv.2.timestamp kv.2.tags with hruns
  have hkey : ∀ r ∈ runs, ∃ s, r.timestamp.sortKey = some s := by
    intro r hr
    rw [hruns] at hr
    obtain ⟨kv, hkv, rfl⟩ := List.mem_map.mp hr
    exact sortKey_isSome (hts kv hkv)
  have hsome : ∀ a ∈ runs, ∀ b ∈ runs, (tsLt a b).isSome := by
    intro a ha b hb
    obtain ⟨sa, hsa⟩ := hkey a ha
    obtain ⟨sb, hsb⟩ := hkey b hb
    simp [tsLt, hsa, hsb]
  have hasym : ∀ a ∈ runs, ∀ b ∈ runs, tsLt a b = some true → tsLt b a = some false := by
    intro a ha b hb h
    obtain ⟨sa, hsa⟩ := hkey a ha
    obtain ⟨sb, hsb⟩ := hkey b hb
    simp only [tsLt, hsa, hsb, Option.some.injEq] at h ⊢
    exact pyStrLt_asymm h
  have htrans : ∀ a ∈ runs, ∀ b ∈ runs, ∀ c ∈ runs,
      tsLt a b = some true → tsLt b c = some true → tsLt a c = some true := by
    intro a ha b hb c hc h₁ h₂
    obtain ⟨sa, hsa⟩ := hkey a ha
    obtain ⟨sb, hsb⟩ := hkey b hb
    obtain ⟨sc, hsc⟩ := hkey c hc
    simp only [tsLt, hsa, hsb, hsc, Option.some.injEq] at h₁ h₂ ⊢
    exact pyStrLt_trans h₁ h₂
  obtain ⟨m, hsort, hperm, hpair⟩ := @osort_spec _ tsLt _ hsome hasym htrans
  refine ⟨m, ?_, hperm, ?_⟩
  · simp only [list_runs, hm, ← hruns]
    have : runs.isEmpty = false := by
      rw [hruns]
      cases entries with
      | nil => exact absurd rfl hne
      | cons e t => rfl
    rw [if_neg (by simp [this])]
    rw [hsort]
  · refine List.Pairwise.imp_of_mem ?_ hpair
    intro a b ha hb h
    obtain ⟨sa, hsa⟩ := hkey a (hperm.subset ha)
    obtain ⟨sb, hsb⟩ := hkey b (hperm.subset hb)
    simp only [tsLt, hsa, hsb, Option.some.injEq] at h
    simpa [tsKeyD, hsa, hsb] using h

/-- C5 counterexample: with a non-empty manifest holding one null-timestamp
entry and one string-timestamp entry, `list_runs` raises a `TypeError`
instead of returning the entries with the missing timestamp first. -/
theorem cex_C5 :
    list_runs ⟨some [("r1", ⟨TsVal.null, .lst ["x"]⟩),
        ("r2", ⟨.str "2024-01-01", .lst []⟩)], []⟩ = .error .typeError ∧
    list_runs ⟨some [("r1", ⟨TsVal.null, .lst ["x"]⟩),
        ("r2", ⟨.str "2024-01-01", .lst []⟩)], []⟩ ≠
      .ok [⟨"r1", TsVal.null, .lst ["x"]⟩, ⟨"r2", .str "2024-01-01", .lst []⟩] := by
  refine ⟨rfl, ?_⟩
  intro h
  rw [show list_runs ⟨some [("r1", ⟨TsVal.null, .lst ["x"]⟩),
      ("r2", ⟨.str "2024-01-01", .lst []⟩)], []⟩ = .error .typeError from rfl] at h
  cases h

theorem thm_C5_witness :
    ∃ recs, list_runs ⟨some [("late", ⟨.str "2024-06-01", .lst []⟩),
        ("noTs", ⟨TsVal.absent, .lst ["x"]⟩),
        ("early", ⟨.str "2024-01-01", .lst ["x"]⟩)], []⟩ = .ok recs ∧
      recs.Perm (([("late", ⟨.str "2024-06-01", .lst []⟩),
        ("noTs", ⟨TsVal.absent, .lst ["x"]⟩),
        ("early", ⟨.str "2024-01-01", .lst ["x"]⟩)] : List (String × MEntry)).map fun kv =>
          RunRec.mk kv.1 kv.2.timestamp kv.2.tags) ∧
      recs.Pairwise fun a b => pyStrLt (tsKeyD b) (tsKeyD a) = false :=
  thm_C5 _ _ rfl (by simp) (by decide)

/-! ## Claim C6 -/

/-- C6: with an absent manifest (or one holding no entries) and run
subdirectories intact, `list_runs` still returns exactly one record per
run subdirectory, in name order; a subdirectory whose metadata is
unreadable is listed with a null timestamp and empty tags rather than
failing the listing. -/
theorem thm_C6 (st : Store) (h : load_manifest st = []) :
    ∃ recs, list_runs st = .ok recs ∧
      recs.map RunRec.run_id = (List.insertionSort keyLeStr st.runs).map Prod.fst ∧
      (recs.map RunRec.run_id).Perm (st.runs.map Prod.fst) ∧
      ∀ name rd, (name, rd) ∈ st.runs → rd.meta = .unreadable →
        RunRec.mk name .null (.lst []) ∈ recs := by
  have hlr : list_runs st = .ok ((List.insertionSort keyLeStr st.runs).map fun kv =>
      match kv.2.meta with
      | .ok m => RunRec.mk kv.1 m.timestamp.orNull m.tags.orEmptyList
      | _ => RunRec.mk kv.1 .null (.lst [])) := by
    simp [list_runs, h]
  have hproj : ∀ kv : String × RunDir,
      (match kv.2.meta with
       | .ok m => RunRec.mk kv.1 m.timestamp.orNull m.tags.orEmptyList
       | _ => RunRec.mk kv.1 .null (.lst [])).run_id = kv.1 := by
    intro kv
    cases kv.2.meta <;> rfl
  have hids : ((List.insertionSort keyLeStr st.runs).map fun kv =>
      match kv.2.meta with
      | .ok m => RunRec.mk kv.1 m.timestamp.orNull m.tags.orEmptyList
      | _ => RunRec.mk kv.1 .null (.lst [])).map RunRec.run_id =
      (List.insertionSort keyLeStr st.runs).map Prod.fst := by
    rw [List.map_map]
    exact List.map_congr_left fun kv _ => hproj kv
  refine ⟨_, hlr, hids, ?_, ?_⟩
  · rw [hids]
    exact (List.perm_insertionSort keyLeStr st.runs).map Prod.fst
  · intro name rd hmem hunread
    have hmem₂ : (name, rd) ∈ List.insertionSort keyLeStr st.runs :=
      (List.perm_insertionSort keyLeStr st.runs).symm.subset hmem
    refine List.mem_map.mpr ⟨(name, rd), hmem₂, ?_⟩
    rw [show rd.meta = MetaRead.unreadable from hunread]

theorem thm_C6_witness :
    ∃ recs, list_runs ⟨Option.none,
        [("r1", ⟨.unreadable, []⟩),
         ("r0", ⟨.ok ⟨.str "t", .lst ["x"], Option.none, Option.none, Option.none⟩, []⟩)]⟩ =
      .ok recs ∧
      recs.map RunRec.run_id = (List.insertionSort keyLeStr
        [("r1", (⟨.unreadable, []⟩ : RunDir)),
         ("r0", ⟨.ok ⟨.str "t", .lst ["x"], Option.none, Option.none, Option.none⟩, []⟩)]).map
          Prod.fst ∧
      (recs.map RunRec.run_id).Perm ["r1", "r0"] ∧
      ∀ name rd, (name, rd) ∈ [("r1", (⟨.unreadable, []⟩ : RunDir)),
          ("r0", ⟨.ok ⟨.str "t", .lst ["x"], Option.none, Option.none, Option.none⟩, []⟩)] →
        rd.meta = .unreadable → RunRec.mk name .null (.lst []) ∈ recs :=
  thm_C6 _ rfl

/-! ## Claim C7 -/

theorem sorted_getLast_le : ∀ {m : List RunRec}, m.Pairwise llLe → ∀ {a : RunRec},
    m.getLast? = some a → ∀ z ∈ m, llLe z a := by
  intro m
  induction m with
  | nil => intro _ a ha; cases ha
  | cons b l ih =>
    intro hs a ha z hz
    cases l with
    | nil =>
      simp only [List.getLast?_singleton, Option.some.injEq] at ha
      rcases List.mem_singleton.mp hz with rfl
      rw [← ha]
      exact pyStrLt_irrefl _
    | cons b₂ l₂ =>
      rw [List.getLast?_cons_cons] at ha
      rw [List.pairwise_cons] at hs
      rcases List.mem_cons.mp hz with rfl | hz
      · have hamem : a ∈ b₂ :: l₂ := List.mem_of_getLast?_eq_some ha
        exact hs.1 a hamem
      · exact ih hs.2 ha z hz

theorem ordIns_getLast {x : RunRec} : ∀ {m : List RunRec}, m.Pairwise llLe →
    (List.orderedInsert llLe x m).getLast? =
      (match m.getLast? with
       | Option.none => some x
       | some a => some (if pyStrLt (llKey a) (llKey x) then x else a)) := by
  intro m
  induction m with
  | nil => intro _; rfl
  | cons b l ih =>
    intro hs
    simp only [List.orderedInsert]
    by_cases hle : llLe x b
    · rw [if_pos hle]
      cases hl : (b :: l).getLast? with
      | none => cases hl
      | some a =>
        have hxa : pyStrLt (llKey a) (llKey x) = false := by
          have hba : llLe b a := sorted_getLast_le hs hl b (by simp)
          exact pyStrLt_nlt_trans hba hle
        rw [List.getLast?_cons_cons, hl]
        simp [hxa]
    · rw [if_neg hle]
      rw [List.pairwise_cons] at hs
      have hlt : pyStrLt (llKey b) (llKey x) = true := by
        by_contra hne
        exact hle (by simpa [llLe] using hne)
      cases hL : List.orderedInsert llLe x l with
      | nil =>
        have := @List.orderedInsert_length _ llLe _ l x
        rw [hL] at this
        simp at this
      | cons c cs =>
        rw [List.getLast?_cons_cons, ← hL, ih hs.2]
        cases l with
        | nil => simp [hlt]
        | cons d ds => rw [List.getLast?_cons_cons]

theorem insertionSort_getLast_eq_lastMaxBy :
    ∀ l : List RunRec, (List.insertionSort llLe l).getLast? = lastMaxBy llKey l := by
  intro l
  induction l with
  | nil => rfl
  | cons x t ih =>
    have hs : (List.insertionSort llLe t).Pairwise llLe :=
      List.sorted_insertionSort llLe t
    simp only [List.insertionSort, lastMaxBy]
    rw [ordIns_getLast hs, ih]
    cases lastMaxBy llKey t <;> rfl

theorem lastMaxBy_ne_none {key : α → String} : ∀ {l : List α},
    lastMaxBy key l = Option.none → l = [] := by
  intro l
  cases l with
  | nil => intro _; rfl
  | cons x xs =>
    intro h
    exfalso
    simp only [lastMaxBy] at h
    cases hm : lastMaxBy key xs <;> rw [hm] at h <;> simp at h

theorem lastMaxBy_max {l : List RunRec} {a : RunRec} (h : lastMaxBy llKey l = some a) :
    a ∈ l ∧ ∀ r ∈ l, pyStrLt (llKey a) (llKey r) = false := by
  induction l generalizing a with
  | nil => cases h
  | cons x t ih =>
    simp only [lastMaxBy] at h
    cases ht : lastMaxBy llKey t with
    | none =>
      rw [ht] at h
      cases h
      have hte : t = [] := lastMaxBy_ne_none ht
      subst hte
      exact ⟨by simp, by
        intro r hr
        rcases List.mem_singleton.mp hr with rfl
        exact pyStrLt_irrefl _⟩
    | some b =>
      rw [ht] at h
      obtain ⟨hbmem, hbmax⟩ := ih ht
      by_cases hc : pyStrLt (llKey b) (llKey x) = true
      · simp only [hc, if_true] at h
        cases h
        refine ⟨by simp, ?_⟩
        intro r hr
        rcases List.mem_cons.mp hr with rfl | hr
        · exact pyStrLt_irrefl _
        · by_contra hxr
          have hxr₂ : pyStrLt (llKey x) (llKey r) = true := by
            cases hv : pyStrLt (llKey x) (llKey r)
            · exact absurd hv hxr
            · rfl
          have hbr : pyStrLt (llKey b) (llKey r) = true := pyStrLt_trans hc hxr₂
          rw [hbmax r hr] at hbr
          cases hbr
      · rw [Bool.not_eq_true] at hc
        simp only [hc, Bool.false_eq_true, if_false] at h
        cases h
        refine ⟨by simp [hbmem], ?_⟩
        intro r hr
        rcases List.mem_cons.mp hr with rfl | hr
        · simpa using hc
        · exact hbmax r hr

/-- C7: when `list_runs` succeeds, `load_latest tag` returns the explicit
not-found value `None` when no listed run carries `tag`; otherwise it
loads the run whose timestamp (null and absent reading as the empty
string) is lexicographically greatest among the runs carrying `tag`, with
ties broken in favor of the latest-listed run — exactly `lastMaxBy`. -/
theorem thm_C7 (c : Codecs) (st : Store) (tag : String) (rs : List RunRec)
    (h : list_runs st = .ok rs) :
    (rs.filter (fun r => r.tags.orEmpty.contains tag) = [] →
      load_latest c st tag = .ok Option.none) ∧
    ∀ ch, lastMaxBy llKey (rs.filter fun r => r.tags.orEmpty.contains tag) = some ch →
      load_latest c st tag = (load c st ch.run_id).map some ∧
      ∀ r ∈ rs.filter (fun r => r.tags.orEmpty.contains tag),
        pyStrLt (llKey ch) (llKey r) = false := by
  constructor
  · intro hempty
    simp only [load_latest, h, bind, Except.bind, hempty]
  · intro ch hch
    refine ⟨?_, fun r hr => (lastMaxBy_max hch).2 r hr⟩
    simp only [load_latest, h, bind, Except.bind]
    cases hcand : rs.filter (fun r => r.tags.orEmpty.contains tag) with
    | nil => rw [hcand] at hch; cases hch
    | cons r t =>
      rw [hcand] at hch
      rw [insertionSort_getLast_eq_lastMaxBy, hch]

theorem thm_C7_witness :
    load_latest ⟨true, true⟩
      ⟨some [("A", ⟨.str "2024-01-01", .lst ["x"]⟩), ("B", ⟨.str "2024-06-01", .lst ["x"]⟩),
        ("C", ⟨.str "2024-03-01", .lst []⟩)],
      [("B", ⟨.ok ⟨.str "2024-06-01", .lst ["x"], some "B", some "npz", some "arrays.npz"⟩,
        [("arrays.npz", .npzFile [("u", ⟨"f8", [1], [5]⟩)])]⟩)]⟩ "y" = .ok Option.none ∧
    load_latest ⟨true, true⟩
      ⟨some [("A", ⟨.str "2024-01-01", .lst ["x"]⟩), ("B", ⟨.str "2024-06-01", .lst ["x"]⟩),
        ("C", ⟨.str "2024-03-01", .lst []⟩)],
      [("B", ⟨.ok ⟨.str "2024-06-01", .lst ["x"], some "B", some "npz", some "arrays.npz"⟩,
        [("arrays.npz", .npzFile [("u", ⟨"f8", [1], [5]⟩)])]⟩)]⟩ "x" =
      (load ⟨true, true⟩
        ⟨some [("A", ⟨.str "2024-01-01", .lst ["x"]⟩), ("B", ⟨.str "2024-06-01", .lst ["x"]⟩),
        ("C", ⟨.str "2024-03-01", .lst []⟩)],
      [("B", ⟨.ok ⟨.str "2024-06-01", .lst ["x"], some "B", some "npz", some "arrays.npz"⟩,
        [("arrays.npz", .npzFile [("u", ⟨"f8", [1], [5]⟩)])]⟩)]⟩ "B").map some ∧
    load_latest ⟨true, true⟩
      ⟨some [("A", ⟨.str "2024-01-01", .lst ["x"]⟩), ("B", ⟨.str "2024-06-01", .lst ["x"]⟩),
        ("C", ⟨.str "2024-03-01", .lst []⟩)],
      [("B", ⟨.ok ⟨.str "2024-06-01", .lst ["x"], some "B", some "npz", some "arrays.npz"⟩,
        [("arrays.npz", .npzFile [("u", ⟨"f8", [1], [5]⟩)])]⟩)]⟩ "x" =
      .ok (some ⟨[("u", ⟨"f8", [1], [5]⟩)],
        ⟨.str "2024-06-01", .lst ["x"], some "B", some "npz", some "arrays.npz"⟩⟩) :=
  ⟨(thm_C7 ⟨true, true⟩
      ⟨some [("A", ⟨.str "2024-01-01", .lst ["x"]⟩), ("B", ⟨.str "2024-06-01", .lst ["x"]⟩),
        ("C", ⟨.str "2024-03-01", .lst []⟩)],
      [("B", ⟨.ok ⟨.str "2024-06-01", .lst ["x"], some "B", some "npz", some "arrays.npz"⟩,
        [("arrays.npz", .npzFile [("u", ⟨"f8", [1], [5]⟩)])]⟩)]⟩ "y"
      [⟨"A", .str "2024-01-01", .lst ["x"]⟩, ⟨"C", .str "2024-03-01", .lst []⟩,
      ⟨"B", .str "2024-06-01", .lst ["x"]⟩] rfl).1 rfl,
   ((thm_C7 ⟨true, true⟩
      ⟨some [("A", ⟨.str "2024-01-01", .lst ["x"]⟩), ("B", ⟨.str "2024-06-01", .lst ["x"]⟩),
        ("C", ⟨.str "2024-03-01", .lst []⟩)],
      [("B", ⟨.ok ⟨.str "2024-06-01", .lst ["x"], some "B", some "npz", some "arrays.npz"⟩,
        [("arrays.npz", .npzFile [("u", ⟨"f8", [1], [5]⟩)])]⟩)]⟩ "x"
      [⟨"A", .str "2024-01-01", .lst ["x"]⟩, ⟨"C", .str "2024-03-01", .lst []⟩,
      ⟨"B", .str "2024-06-01", .lst ["x"]⟩] rfl).2
      ⟨"B", .str "2024-06-01", .lst ["x"]⟩ rfl).1,
   rfl⟩

/-! ## Lemmas: boolean predicates unpacked -/

theorem jsize_pos : ∀ j : JVal, 1 ≤ jsize j := by
  intro j
  cases j <;> simp [jsize]

theorem jsizeList_mem : ∀ {xs : List JVal} {x : JVal}, x ∈ xs → jsize x ≤ jsizeList xs := by
  intro xs
  induction xs with
  | nil => intro x h; cases h
  | cons y ys ih =>
    intro x h
    rcases List.mem_cons.mp h with rfl | h
    · simp [jsizeList]
    · have := ih h
      simp [jsizeList]
      omega

theorem pairwiseB_iff {p : α → α → Bool} :
    ∀ {l : List α}, pairwiseB p l = true ↔ l.Pairwise fun a b => p a b = true := by
  intro l
  induction l with
  | nil => simp [pairwiseB]
  | cons x xs ih =>
    simp [pairwiseB, ih, List.all_eq_true, List.pairwise_cons]

theorem nodupB_iff : ∀ {l : List String}, nodupB l = true ↔ l.Nodup := by
  intro l
  induction l with
  | nil => simp [nodupB]
  | cons x xs ih => simp [nodupB, ih]

theorem wfList_mem : ∀ {xs : List PyVal}, wfList xs = true → ∀ {x}, x ∈ xs → wf x = true := by
  intro xs
  induction xs with
  | nil => intro _ x h; cases h
  | cons y ys ih =>
    intro h x hx
    rw [show wfList (y :: ys) = (wf y && wfList ys) from rfl, Bool.and_eq_true] at h
    rcases List.mem_cons.mp hx with rfl | hx
    · exact h.1
    · exact ih h.2 hx

theorem wfEntries_mem : ∀ {es : List (PKey × PyVal)}, wfEntries es = true →
    ∀ {k v}, (k, v) ∈ es → wf v = true := by
  intro es
  induction es with
  | nil => intro _ k v h; cases h
  | cons e t ih =>
    intro h k v hv
    obtain ⟨k₁, v₁⟩ := e
    rw [show wfEntries ((k₁, v₁) :: t) = (wf v₁ && wfEntries t) from rfl,
      Bool.and_eq_true] at h
    rcases List.mem_cons.mp hv with heq | hv
    · cases heq
      exact h.1
    · exact ih h.2 hv

theorem hashableListB_mem : ∀ {xs : List PyVal}, hashableListB xs = true →
    ∀ {x}, x ∈ xs → hashableB x = true := by
  intro xs
  induction xs with
  | nil => intro _ x h; cases h
  | cons y ys ih =>
    intro h x hx
    rw [show hashableListB (y :: ys) = (hashableB y && hashableListB ys) from rfl,
      Bool.and_eq_true] at h
    rcases List.mem_cons.mp hx with rfl | hx
    · exact h.1
    · exact ih h.2 hx

theorem objFreeListB_mem : ∀ {xs : List JVal}, objFreeListB xs = true →
    ∀ {x}, x ∈ xs → objFreeB x = true := by
  intro xs
  induction xs with
  | nil => intro _ x h; cases h
  | cons y ys ih =>
    intro h x hx
    rw [show objFreeListB (y :: ys) = (objFreeB y && objFreeListB ys) from rfl,
      Bool.and_eq_true] at h
    rcases List.mem_cons.mp hx with rfl | hx
    · exact h.1
    · exact ih h.2 hx

theorem viewedListB_mem : ∀ {xs : List JVal}, viewedListB xs = true →
    ∀ {x}, x ∈ xs → viewedB x = true := by
  intro xs
  induction xs with
  | nil => intro _ x h; cases h
  | cons y ys ih =>
    intro h x hx
    rw [show viewedListB (y :: ys) = (viewedB y && viewedListB ys) from rfl,
      Bool.and_eq_true] at h
    rcases List.mem_cons.mp hx with rfl | hx
    · exact h.1
    · exact ih h.2 hx

/-! ## Lemmas: the numeric view -/

theorem jview_viewed : ∀ (n : Nat) (u : JVal), jsize u ≤ n → viewedB u = true →
    jview u = u := by
  intro n
  induction n with
  | zero => intro u hu _; have := jsize_pos u; omega
  | succ n ih =>
    intro u hu hv
    cases u with
    | null => rfl
    | int _ => rfl
    | str _ => rfl
    | bool b => simp [viewedB] at hv
    | obj es => simp [viewedB] at hv
    | arr xs =>
      have hsz : jsizeList xs ≤ n := by
        rw [show jsize (JVal.arr xs) = jsizeList xs + 1 from rfl] at hu
        omega
      have hstep : ∀ t : List JVal, jsizeList t ≤ n → viewedListB t = true →
          jviewList t = t := by
        intro t
        induction t with
        | nil => intro _ _; rfl
        | cons x u iht =>
          intro hs hvv
          rw [show jsizeList (x :: u) = jsize x + jsizeList u from rfl] at hs
          rw [show viewedListB (x :: u) = (viewedB x && viewedListB u) from rfl,
            Bool.and_eq_true] at hvv
          have h1 := jsize_pos x
          rw [show jviewList (x :: u) = jview x :: jviewList u from rfl]
          rw [ih x (by omega) hvv.1, iht (by omega) hvv.2]
      rw [show jview (JVal.arr xs) = .arr (jviewList xs) from rfl, hstep xs hsz hv]

theorem jview_objFree_viewed : ∀ (n : Nat) (u : JVal), jsize u ≤ n →
    objFreeB u = true → viewedB (jview u) = true := by
  intro n
  induction n with
  | zero => intro u hu _; have := jsize_pos u; omega
  | succ n ih =>
    intro u hu hof
    cases u with
    | null => rfl
    | int _ => rfl
    | str _ => rfl
    | bool b => rfl
    | obj es => simp [objFreeB] at hof
    | arr xs =>
      have hsz : jsizeList xs ≤ n := by
        rw [show jsize (JVal.arr xs) = jsizeList xs + 1 from rfl] at hu
        omega
      have hstep : ∀ t : List JVal, jsizeList t ≤ n → objFreeListB t = true →
          viewedListB (jviewList t) = true := by
        intro t
        induction t with
        | nil => intro _ _; rfl
        | cons x u iht =>
          intro hs hvv
          rw [show jsizeList (x :: u) = jsize x + jsizeList u from rfl] at hs
          rw [show objFreeListB (x :: u) = (objFreeB x && objFreeListB u) from rfl,
            Bool.and_eq_true] at hvv
          have h1 := jsize_pos x
          rw [show jviewList (x :: u) = jview x :: jviewList u from rfl]
          rw [show viewedListB (jview x :: jviewList u) =
            (viewedB (jview x) && viewedListB (jviewList u)) from rfl]
          rw [ih x (by omega) hvv.1, iht (by omega) hvv.2]
          rfl
      rw [show jview (JVal.arr xs) = .arr (jviewList xs) from rfl]
      rw [show viewedB (JVal.arr (jviewList xs)) = viewedListB (jviewList xs) from rfl]
      exact hstep xs hsz hof

theorem pyEq_iff_view : ∀ (n : Nat) (x y : JVal), jsize x ≤ n →
    objFreeB x = true → objFreeB y = true →
    (pyEqJ x y = true ↔ jview x = jview y) := by
  intro n
  induction n with
  | zero => intro x y hx _ _; have := jsize_pos x; omega
  | succ n ih =>
    intro x y hx hofx hofy
    have harr : ∀ xs ys : List JVal, jsizeList xs ≤ n → objFreeListB xs = true →
        objFreeListB ys = true →
        ((xs.length == ys.length && pyEqArr xs ys) = true ↔ jviewList xs = jviewList ys) := by
      intro xs
      induction xs with
      | nil =>
        intro ys _ _ _
        cases ys with
        | nil =>
          rw [show pyEqArr ([] : List JVal) [] = true from rfl]
          simp
        | cons y u =>
          rw [show jviewList ([] : List JVal) = [] from rfl,
            show jviewList (y :: u) = jview y :: jviewList u from rfl]
          simp
      | cons x t iht =>
        intro ys hs hox hoy
        cases ys with
        | nil =>
          rw [show jviewList (x :: t) = jview x :: jviewList t from rfl,
            show jviewList ([] : List JVal) = [] from rfl]
          simp
        | cons y u =>
          rw [show jsizeList (x :: t) = jsize x + jsizeList t from rfl] at hs
          rw [show objFreeListB (x :: t) = (objFreeB x && objFreeListB t) from rfl,
            Bool.and_eq_true] at hox
          rw [show objFreeListB (y :: u) = (objFreeB y && objFreeListB u) from rfl,
            Bool.and_eq_true] at hoy
          have h1 := jsize_pos x
          rw [show pyEqArr (x :: t) (y :: u) = (pyEqJ x y && pyEqArr t u) from rfl]
          rw [show jviewList (x :: t) = jview x :: jviewList t from rfl,
            show jviewList (y :: u) = jview y :: jviewList u from rfl]
          rw [show ((x :: t).length == (y :: u).length) = (t.length == u.length) by
            simp [Nat.succ_eq_add_one]]
          constructor
          · intro h
            rw [Bool.and_eq_true, Bool.and_eq_true] at h
            obtain ⟨hlen, hxy, htu⟩ := h
            have he := (ih x y (by omega) hox.1 hoy.1).mp hxy
            have ht := (iht u (by omega) hox.2 hoy.2).mp (by
              rw [Bool.and_eq_true]
              exact ⟨hlen, htu⟩)
            rw [he, ht]
          · intro h
            rw [List.cons.injEq] at h
            have hxy := (ih x y (by omega) hox.1 hoy.1).mpr h.1
            have htu := (iht u (by omega) hox.2 hoy.2).mpr h.2
            rw [Bool.and_eq_true] at htu
            rw [Bool.and_eq_true, Bool.and_eq_true]
            exact ⟨htu.1, hxy, htu.2⟩
    cases x <;> cases y <;>
      first
        | (exact absurd hofx fun h => Bool.noConfusion (show false = true from h))
        | (exact absurd hofy fun h => Bool.noConfusion (show false = true from h))
        | (exact iff_of_true rfl rfl)
        | (exact iff_of_false (fun h => Bool.noConfusion (show false = true from h))
            fun h => JVal.noConfusion h)
        | skip
    case bool.bool a b =>
      rw [show pyEqJ (.bool a) (.bool b) = (a == b) from rfl,
        show jview (JVal.bool a) = .int (if a then 1 else 0) from rfl,
        show jview (JVal.bool b) = .int (if b then 1 else 0) from rfl]
      cases a <;> cases b <;> simp
    case bool.int a m =>
      rw [show pyEqJ (.bool a) (.int m) = ((if a then (1 : Int) else 0) == m) from rfl,
        show jview (JVal.bool a) = .int (if a then 1 else 0) from rfl,
        show jview (JVal.int m) = .int m from rfl]
      simp
    case int.bool m b =>
      rw [show pyEqJ (.int m) (.bool b) = (m == (if b then (1 : Int) else 0)) from rfl,
        show jview (JVal.int m) = .int m from rfl,
        show jview (JVal.bool b) = .int (if b then 1 else 0) from rfl]
      simp
    case int.int a b =>
      rw [show pyEqJ (.int a) (.int b) = (a == b) from rfl,
        show jview (JVal.int a) = .int a from rfl,
        show jview (JVal.int b) = .int b from rfl]
      simp
    case str.str a b =>
      rw [show pyEqJ (.str a) (.str b) = (a == b) from rfl,
        show jview (JVal.str a) = .str a from rfl,
        show jview (JVal.str b) = .str b from rfl]
      simp
    case arr.arr xs ys =>
      rw [show pyEqJ (.arr xs) (.arr ys) = (xs.length == ys.length && pyEqArr xs ys) from rfl]
      rw [show jview (JVal.arr xs) = .arr (jviewList xs) from rfl,
        show jview (JVal.arr ys) = .arr (jviewList ys) from rfl]
      rw [show jsize (JVal.arr xs) = jsizeList xs + 1 from rfl] at hx
      rw [JVal.arr.injEq]
      exact harr xs ys (by omega) hofx hofy

theorem viewed_objFree : ∀ (n : Nat) (u : JVal), jsize u ≤ n → viewedB u = true →
    objFreeB u = true := by
  intro n
  induction n with
  | zero => intro u hu _; have := jsize_pos u; omega
  | succ n ih =>
    intro u hu hv
    cases u with
    | null => rfl
    | int _ => rfl
    | str _ => rfl
    | bool b => exact absurd hv fun h => Bool.noConfusion (show false = true from h)
    | obj es => exact absurd hv fun h => Bool.noConfusion (show false = true from h)
    | arr xs =>
      rw [show jsize (JVal.arr xs) = jsizeList xs + 1 from rfl] at hu
      rw [show viewedB (JVal.arr xs) = viewedListB xs from rfl] at hv
      rw [show objFreeB (JVal.arr xs) = objFreeListB xs from rfl]
      have hstep : ∀ t : List JVal, jsizeList t ≤ n → viewedListB t = true →
          objFreeListB t = true := by
        intro t
        induction t with
        | nil => intro _ _; rfl
        | cons x u₂ iht =>
          intro hs hvv
          rw [show jsizeList (x :: u₂) = jsize x + jsizeList u₂ from rfl] at hs
          rw [show viewedListB (x :: u₂) = (viewedB x && viewedListB u₂) from rfl,
            Bool.and_eq_true] at hvv
          have h1 := jsize_pos x
          rw [show objFreeListB (x :: u₂) = (objFreeB x && objFreeListB u₂) from rfl,
            Bool.and_eq_true]
          exact ⟨ih x (by omega) hvv.1, iht (by omega) hvv.2⟩
      exact hstep xs (by omega) hv

/-- Python equality on the views of object-free values is plain equality. -/
theorem pyEq_viewed_iff {u v : JVal} (hu : viewedB u = true) (hv : viewedB v = true) :
    (pyEqJ u v = true ↔ u = v) := by
  have h := pyEq_iff_view (jsize u) u v (le_refl _)
    (viewed_objFree (jsize u) u (le_refl _) hu)
    (viewed_objFree (jsize v) v (le_refl _) hv)
  rw [jview_viewed (jsize u) u (le_refl _) hu, jview_viewed (jsize v) v (le_refl _) hv] at h
  exact h

theorem pyLt_view : ∀ (n : Nat) (x y : JVal), jsize x ≤ n →
    objFreeB x = true → objFreeB y = true →
    pyLtJ x y = pyLtJ (jview x) (jview y) := by
  intro n
  induction n with
  | zero => intro x y hx _ _; have := jsize_pos x; omega
  | succ n ih =>
    intro x y hx hofx hofy
    have harr : ∀ xs ys : List JVal, jsizeList xs ≤ n → objFreeListB xs = true →
        objFreeListB ys = true →
        pyLtArr xs ys = pyLtArr (jviewList xs) (jviewList ys) := by
      intro xs
      induction xs with
      | nil =>
        intro ys _ _ _
        cases ys with
        | nil => rfl
        | cons y u => rfl
      | cons x t iht =>
        intro ys hs hox hoy
        cases ys with
        | nil => rfl
        | cons y u =>
          rw [show jsizeList (x :: t) = jsize x + jsizeList t from rfl] at hs
          rw [show objFreeListB (x :: t) = (objFreeB x && objFreeListB t) from rfl,
            Bool.and_eq_true] at hox
          rw [show objFreeListB (y :: u) = (objFreeB y && objFreeListB u) from rfl,
            Bool.and_eq_true] at hoy
          have h1 := jsize_pos x
          rw [show jviewList (x :: t) = jview x :: jviewList t from rfl,
            show jviewList (y :: u) = jview y :: jviewList u from rfl]
          rw [show pyLtArr (x :: t) (y :: u) =
            (if pyEqJ x y then pyLtArr t u else pyLtJ x y) from rfl]
          rw [show pyLtArr (jview x :: jviewList t) (jview y :: jviewList u) =
            (if pyEqJ (jview x) (jview y) then pyLtArr (jviewList t) (jviewList u)
             else pyLtJ (jview x) (jview y)) from rfl]
          have hvx := jview_objFree_viewed (jsize x) x (le_refl _) hox.1
          have hvy := jview_objFree_viewed (jsize y) y (le_refl _) hoy.1
          have heqc : pyEqJ x y = pyEqJ (jview x) (jview y) := by
            rw [Bool.eq_iff_iff]
            rw [pyEq_iff_view n x y (by omega) hox.1 hoy.1, pyEq_viewed_iff hvx hvy]
          rw [← heqc]
          by_cases he : pyEqJ x y = true
          · rw [if_pos he, if_pos he]
            exact iht u (by omega) hox.2 hoy.2
          · rw [if_neg he, if_neg he]
            exact ih x y (by omega) hox.1 hoy.1
    cases x <;> cases y <;>
      first
        | (exact absurd hofx fun h => Bool.noConfusion (show false = true from h))
        | (exact absurd hofy fun h => Bool.noConfusion (show false = true from h))
        | rfl
        | skip
    case arr.arr xs ys =>
      rw [show jsize (JVal.arr xs) = jsizeList xs + 1 from rfl] at hx
      rw [show pyLtJ (.arr xs) (.arr ys) = pyLtArr xs ys from rfl,
        show jview (JVal.arr xs) = .arr (jviewList xs) from rfl,
        show jview (JVal.arr ys) = .arr (jviewList ys) from rfl,
        show pyLtJ (.arr (jviewList xs)) (.arr (jviewList ys)) =
          pyLtArr (jviewList xs) (jviewList ys) from rfl]
      exact harr xs ys (by omega) hofx hofy

theorem pyLt_viewed_asymm : ∀ (n : Nat) (u v : JVal), jsize u ≤ n →
    viewedB u = true → viewedB v = true →
    pyLtJ u v = some true → pyLtJ v u = some false := by
  intro n
  induction n with
  | zero => intro u v hu _ _ _; have := jsize_pos u; omega
  | succ n ih =>
    intro u v hu hvu hvv
    have harr : ∀ xs ys : List JVal, jsizeList xs ≤ n → viewedListB xs = true →
        viewedListB ys = true →
        pyLtArr xs ys = some true → pyLtArr ys xs = some false := by
      intro xs
      induction xs with
      | nil =>
        intro ys _ _ _ h
        cases ys with
        | nil => cases h
        | cons y u₂ => rfl
      | cons x t iht =>
        intro ys hs hvx hvy h
        cases ys with
        | nil => cases h
        | cons y u₂ =>
          rw [show jsizeList (x :: t) = jsize x + jsizeList t from rfl] at hs
          rw [show viewedListB (x :: t) = (viewedB x && viewedListB t) from rfl,
            Bool.and_eq_true] at hvx
          rw [show viewedListB (y :: u₂) = (viewedB y && viewedListB u₂) from rfl,
            Bool.and_eq_true] at hvy
          have h1 := jsize_pos x
          rw [show pyLtArr (x :: t) (y :: u₂) =
            (if pyEqJ x y then pyLtArr t u₂ else pyLtJ x y) from rfl] at h
          rw [show pyLtArr (y :: u₂) (x :: t) =
            (if pyEqJ y x then pyLtArr u₂ t else pyLtJ y x) from rfl]
          by_cases he : pyEqJ x y = true
          · have hxy : x = y := (pyEq_viewed_iff hvx.1 hvy.1).mp he
            rw [if_pos he] at h
            rw [if_pos (by
              rw [pyEq_viewed_iff hvy.1 hvx.1]
              exact hxy.symm)]
            exact iht u₂ (by omega) hvx.2 hvy.2 h
          · have hxy : x ≠ y := fun hh => he ((pyEq_viewed_iff hvx.1 hvy.1).mpr hh)
            rw [if_neg he] at h
            rw [if_neg (by
              rw [pyEq_viewed_iff hvy.1 hvx.1]
              exact fun hh => hxy hh.symm)]
            exact ih x y (by omega) hvx.1 hvy.1 h
    cases u <;> cases v <;>
      first
        | (exact absurd hvu fun h => Bool.noConfusion (show false = true from h))
        | (exact absurd hvv fun h => Bool.noConfusion (show false = true from h))
        | (exact fun h => Option.noConfusion (show (Option.none : Option Bool) = some true from h))
        | skip
    case int.int a b =>
      intro h
      rw [show pyLtJ (.int a) (.int b) = some (decide (a < b)) from rfl,
        Option.some.injEq] at h
      rw [show pyLtJ (.int b) (.int a) = some (decide (b < a)) from rfl]
      simp only [decide_eq_true_eq] at h
      simp [h]
      omega
    case str.str a b =>
      intro h
      rw [show pyLtJ (.str a) (.str b) = some (pyStrLt a b) from rfl,
        Option.some.injEq] at h
      rw [show pyLtJ (.str b) (.str a) = some (pyStrLt b a) from rfl]
      rw [pyStrLt_asymm h]
    case arr.arr xs ys =>
      intro h
      rw [show jsize (JVal.arr xs) = jsizeList xs + 1 from rfl] at hu
      rw [show pyLtJ (.arr xs) (.arr ys) = pyLtArr xs ys from rfl] at h
      rw [show pyLtJ (.arr ys) (.arr xs) = pyLtArr ys xs from rfl]
      exact harr xs ys (by omega) hvu hvv h

theorem pyLt_viewed_comm_isSome : ∀ (n : Nat) (u v : JVal), jsize u ≤ n →
    viewedB u = true → viewedB v = true →
    (pyLtJ u v).isSome = (pyLtJ v u).isSome := by
  intro n
  induction n with
  | zero => intro u v hu _ _; have := jsize_pos u; omega
  | succ n ih =>
    intro u v hu hvu hvv
    have harr : ∀ xs ys : List JVal, jsizeList xs ≤ n → viewedListB xs = true →
        viewedListB ys = true →
        (pyLtArr xs ys).isSome = (pyLtArr ys xs).isSome := by
      intro xs
      induction xs with
      | nil =>
        intro ys _ _ _
        cases ys with
        | nil => rfl
        | cons y u₂ => rfl
      | cons x t iht =>
        intro ys hs hvx hvy
        cases ys with
        | nil => rfl
        | cons y u₂ =>
          rw [show jsizeList (x :: t) = jsize x + jsizeList t from rfl] at hs
          rw [show viewedListB (x :: t) = (viewedB x && viewedListB t) from rfl,
            Bool.and_eq_true] at hvx
          rw [show viewedListB (y :: u₂) = (viewedB y && viewedListB u₂) from rfl,
            Bool.and_eq_true] at hvy
          have h1 := jsize_pos x
          rw [show pyLtArr (x :: t) (y :: u₂) =
            (if pyEqJ x y then pyLtArr t u₂ else pyLtJ x y) from rfl]
          rw [show pyLtArr (y :: u₂) (x :: t) =
            (if pyEqJ y x then pyLtArr u₂ t else pyLtJ y x) from rfl]
          by_cases he : pyEqJ x y = true
          · have hxy : x = y := (pyEq_viewed_iff hvx.1 hvy.1).mp he
            rw [if_pos he, if_pos (by
              rw [pyEq_viewed_iff hvy.1 hvx.1]
              exact hxy.symm)]
            exact iht u₂ (by omega) hvx.2 hvy.2
          · have hxy : x ≠ y := fun hh => he ((pyEq_viewed_iff hvx.1 hvy.1).mpr hh)
            rw [if_neg he, if_neg (by
              rw [pyEq_viewed_iff hvy.1 hvx.1]
              exact fun hh => hxy hh.symm)]
            exact ih x y (by omega) hvx.1 hvy.1
    cases u <;> cases v <;>
      first
        | (exact absurd hvu fun h => Bool.noConfusion (show false = true from h))
        | (exact absurd hvv fun h => Bool.noConfusion (show false = true from h))
        | rfl
        | skip
    case arr.arr xs ys =>
      rw [show jsize (JVal.arr xs) = jsizeList xs + 1 from rfl] at hu
      rw [show pyLtJ (.arr xs) (.arr ys) = pyLtArr xs ys from rfl,
        show pyLtJ (.arr ys) (.arr xs) = pyLtArr ys xs from rfl]
      exact harr xs ys (by omega) hvu hvv

theorem pyLt_viewed_conn : ∀ (n : Nat) (u v : JVal), jsize u ≤ n →
    viewedB u = true → viewedB v = true →
    pyLtJ u v = some false → pyLtJ v u = some false → u = v := by
  intro n
  induction n with
  | zero => intro u v hu _ _ _ _; have := jsize_pos u; omega
  | succ n ih =>
    intro u v hu hvu hvv
    have harr : ∀ xs ys : List JVal, jsizeList xs ≤ n → viewedListB xs = true →
        viewedListB ys = true →
        pyLtArr xs ys = some false → pyLtArr ys xs = some false → xs = ys := by
      intro xs
      induction xs with
      | nil =>
        intro ys _ _ _ h₁ _
        cases ys with
        | nil => rfl
        | cons y u₂ => cases h₁
      | cons x t iht =>
        intro ys hs hvx hvy h₁ h₂
        cases ys with
        | nil => cases h₂
        | cons y u₂ =>
          rw [show jsizeList (x :: t) = jsize x + jsizeList t from rfl] at hs
          rw [show viewedListB (x :: t) = (viewedB x && viewedListB t) from rfl,
            Bool.and_eq_true] at hvx
          rw [show viewedListB (y :: u₂) = (viewedB y && viewedListB u₂) from rfl,
            Bool.and_eq_true] at hvy
          have hsz := jsize_pos x
          rw [show pyLtArr (x :: t) (y :: u₂) =
            (if pyEqJ x y then pyLtArr t u₂ else pyLtJ x y) from rfl] at h₁
          rw [show pyLtArr (y :: u₂) (x :: t) =
            (if pyEqJ y x then pyLtArr u₂ t else pyLtJ y x) from rfl] at h₂
          by_cases he : pyEqJ x y = true
          · have hxy : x = y := (pyEq_viewed_iff hvx.1 hvy.1).mp he
            rw [if_pos he] at h₁
            rw [if_pos (by
              rw [pyEq_viewed_iff hvy.1 hvx.1]
              exact hxy.symm)] at h₂
            rw [hxy, iht u₂ (by omega) hvx.2 hvy.2 h₁ h₂]
          · have hxy : x ≠ y := fun hh => he ((pyEq_viewed_iff hvx.1 hvy.1).mpr hh)
            rw [if_neg he] at h₁
            rw [if_neg (by
              rw [pyEq_viewed_iff hvy.1 hvx.1]
              exact fun hh => hxy hh.symm)] at h₂
            exact absurd (ih x y (by omega) hvx.1 hvy.1 h₁ h₂) hxy
    cases u <;> cases v <;>
      first
        | (exact absurd hvu fun h => Bool.noConfusion (show false = true from h))
        | (exact absurd hvv fun h => Bool.noConfusion (show false = true from h))
        | (exact fun h _ =>
            Option.noConfusion (show (Option.none : Option Bool) = some false from h))
        | skip
    case int.int a b =>
      intro h₁ h₂
      rw [show pyLtJ (.int a) (.int b) = some (decide (a < b)) from rfl,
        Option.some.injEq] at h₁
      rw [show pyLtJ (.int b) (.int a) = some (decide (b < a)) from rfl,
        Option.some.injEq] at h₂
      simp only [decide_eq_false_iff_not] at h₁ h₂
      have : a = b := by omega
      rw [this]
    case str.str a b =>
      intro h₁ h₂
      rw [show pyLtJ (.str a) (.str b) = some (pyStrLt a b) from rfl,
        Option.some.injEq] at h₁
      rw [show pyLtJ (.str b) (.str a) = some (pyStrLt b a) from rfl,
        Option.some.injEq] at h₂
      rw [pyStrLt_conn h₁ h₂]
    case arr.arr xs ys =>
      intro h₁ h₂
      rw [show jsize (JVal.arr xs) = jsizeList xs + 1 from rfl] at hu
      rw [show pyLtJ (.arr xs) (.arr ys) = pyLtArr xs ys from rfl] at h₁
      rw [show pyLtJ (.arr ys) (.arr xs) = pyLtArr ys xs from rfl] at h₂
      rw [harr xs ys (by omega) hvu hvv h₁ h₂]

theorem pyLt_viewed_trans : ∀ (n : Nat) (u v w : JVal), jsize u + jsize v + jsize w ≤ n →
    viewedB u = true → viewedB v = true → viewedB w = true →
    pyLtJ u v = some true → pyLtJ v w = some true → pyLtJ u w = some true := by
  intro n
  induction n with
  | zero => intro u v w hu _ _ _ _ _; have := jsize_pos u; omega
  | succ n ih =>
    intro u v w hu hvu hvv hvw
    have harr : ∀ xs ys zs : List JVal,
        jsizeList xs + jsizeList ys + jsizeList zs ≤ n →
        viewedListB xs = true → viewedListB ys = true → viewedListB zs = true →
        pyLtArr xs ys = some true → pyLtArr ys zs = some true →
        pyLtArr xs zs = some true := by
      intro xs
      induction xs with
      | nil =>
        intro ys zs _ _ _ _ h₁ h₂
        cases ys with
        | nil => cases h₁
        | cons y u₂ =>
          cases zs with
          | nil => cases h₂
          | cons z w₂ => rfl
      | cons x t iht =>
        intro ys zs hs hvx hvy hvz h₁ h₂
        cases ys with
        | nil => cases h₁
        | cons y u₂ =>
          cases zs with
          | nil => cases h₂
          | cons z w₂ =>
            rw [show jsizeList (x :: t) = jsize x + jsizeList t from rfl,
              show jsizeList (y :: u₂) = jsize y + jsizeList u₂ from rfl,
              show jsizeList (z :: w₂) = jsize z + jsizeList w₂ from rfl] at hs
            rw [show viewedListB (x :: t) = (viewedB x && viewedListB t) from rfl,
              Bool.and_eq_true] at hvx
            rw [show viewedListB (y :: u₂) = (viewedB y && viewedListB u₂) from rfl,
              Bool.and_eq_true] at hvy
            rw [show viewedListB (z :: w₂) = (viewedB z && viewedListB w₂) from rfl,
              Bool.and_eq_true] at hvz
            have hp1 := jsize_pos x
            have hp2 := jsize_pos y
            have hp3 := jsize_pos z
            rw [show pyLtArr (x :: t) (y :: u₂) =
              (if pyEqJ x y then pyLtArr t u₂ else pyLtJ x y) from rfl] at h₁
            rw [show pyLtArr (y :: u₂) (z :: w₂) =
              (if pyEqJ y z then pyLtArr u₂ w₂ else pyLtJ y z) from rfl] at h₂
            rw [show pyLtArr (x :: t) (z :: w₂) =
              (if pyEqJ x z then pyLtArr t w₂ else pyLtJ x z) from rfl]
            by_cases he₁ : pyEqJ x y = true <;> by_cases he₂ : pyEqJ y z = true
            · have hxy : x = y := (pyEq_viewed_iff hvx.1 hvy.1).mp he₁
              have hyz : y = z := (pyEq_viewed_iff hvy.1 hvz.1).mp he₂
              rw [if_pos he₁] at h₁
              rw [if_pos he₂] at h₂
              rw [if_pos (by
                rw [pyEq_viewed_iff hvx.1 hvz.1]
                rw [hxy, hyz])]
              exact iht u₂ w₂ (by omega) hvx.2 hvy.2 hvz.2 h₁ h₂
            · have hxy : x = y := (pyEq_viewed_iff hvx.1 hvy.1).mp he₁
              rw [if_pos he₁] at h₁
              rw [if_neg he₂] at h₂
              rw [if_neg (by
                rw [pyEq_viewed_iff hvx.1 hvz.1]
                intro hh
                exact he₂ ((pyEq_viewed_iff hvy.1 hvz.1).mpr (hxy ▸ hh)))]
              rw [hxy]
              exact h₂
            · have hyz : y = z := (pyEq_viewed_iff hvy.1 hvz.1).mp he₂
              rw [if_neg he₁] at h₁
              rw [if_pos he₂] at h₂
              rw [if_neg (by
                rw [pyEq_viewed_iff hvx.1 hvz.1]
                intro hh
                exact he₁ ((pyEq_viewed_iff hvx.1 hvy.1).mpr (hyz ▸ hh)))]
              rw [← hyz]
              exact h₁
            · rw [if_neg he₁] at h₁
              rw [if_neg he₂] at h₂
              have hlt := ih x y z (by omega) hvx.1 hvy.1 hvz.1 h₁ h₂
              rw [if_neg (by
                rw [pyEq_viewed_iff hvx.1 hvz.1]
                intro hh
                rw [hh] at h₁
                have := pyLt_viewed_asymm (jsize z) z y (le_refl _) hvz.1 hvy.1 h₁
                rw [this] at h₂
                cases h₂)]
              exact hlt
    cases u <;> cases v <;> cases w <;>
      first
        | (exact absurd hvu fun h => Bool.noConfusion (show false = true from h))
        | (exact absurd hvv fun h => Bool.noConfusion (show false = true from h))
        | (exact absurd hvw fun h => Bool.noConfusion (show false = true from h))
        | (exact fun h _ =>
            Option.noConfusion (show (Option.none : Option Bool) = some true from h))
        | (exact fun _ h =>
            Option.noConfusion (show (Option.none : Option Bool) = some true from h))
        | skip
    case int.int.int a b c =>
      intro h₁ h₂
      rw [show pyLtJ (.int a) (.int b) = some (decide (a < b)) from rfl,
        Option.some.injEq] at h₁
      rw [show pyLtJ (.int b) (.int c) = some (decide (b < c)) from rfl,
        Option.some.injEq] at h₂
      rw [show pyLtJ (.int a) (.int c) = some (decide (a < c)) from rfl,
        Option.some.injEq]
      simp only [decide_eq_true_eq] at h₁ h₂
      simp
      omega
    case str.str.str a b c =>
      intro h₁ h₂
      rw [show pyLtJ (.str a) (.str b) = some (pyStrLt a b) from rfl,
        Option.some.injEq] at h₁
      rw [show pyLtJ (.str b) (.str c) = some (pyStrLt b c) from rfl,
        Option.some.injEq] at h₂
      rw [show pyLtJ (.str a) (.str c) = some (pyStrLt a c) from rfl,
        Option.some.injEq]
      exact pyStrLt_trans h₁ h₂
    case arr.arr.arr xs ys zs =>
      intro h₁ h₂
      rw [show jsize (JVal.arr xs) = jsizeList xs + 1 from rfl,
        show jsize (JVal.arr ys) = jsizeList ys + 1 from rfl,
        show jsize (JVal.arr zs) = jsizeList zs + 1 from rfl] at hu
      rw [show pyLtJ (.arr xs) (.arr ys) = pyLtArr xs ys from rfl] at h₁
      rw [show pyLtJ (.arr ys) (.arr zs) = pyLtArr ys zs from rfl] at h₂
      rw [show pyLtJ (.arr xs) (.arr zs) = pyLtArr xs zs from rfl]
      exact harr xs ys zs (by omega) hvu hvv hvw h₁ h₂

theorem canonList_eq_map : ∀ xs : List JVal, canonList xs = xs.map canon := by
  intro xs
  induction xs with
  | nil => rfl
  | cons x t ih =>
    rw [show canonList (x :: t) = canon x :: canonList t from rfl, ih, List.map_cons]

theorem canonEntries_eq_map : ∀ es : List (String × JVal),
    canonEntries es = es.map fun kv => (kv.1, canon kv.2) := by
  intro es
  induction es with
  | nil => rfl
  | cons e t ih =>
    obtain ⟨k, v⟩ := e
    rw [show canonEntries ((k, v) :: t) = (k, canon v) :: canonEntries t from rfl, ih,
      List.map_cons]

theorem canon_objFree : ∀ (n : Nat) (j : JVal), jsize j ≤ n → objFreeB j = true →
    canon j = j := by
  intro n
  induction n with
  | zero => intro j hj _; have := jsize_pos j; omega
  | succ n ih =>
    intro j hj hof
    cases j with
    | obj es => exact absurd hof fun h => Bool.noConfusion (show false = true from h)
    | arr xs =>
      rw [show canon (.arr xs) = .arr (canonList xs) from rfl]
      rw [show jsize (JVal.arr xs) = jsizeList xs + 1 from rfl] at hj
      rw [show objFreeB (.arr xs) = objFreeListB xs from rfl] at hof
      congr 1
      induction xs with
      | nil => rfl
      | cons x t iht =>
        rw [show jsizeList (x :: t) = jsize x + jsizeList t from rfl] at hj
        rw [show objFreeListB (x :: t) = (objFreeB x && objFreeListB t) from rfl,
          Bool.and_eq_true] at hof
        have h1 := jsize_pos x
        rw [show canonList (x :: t) = canon x :: canonList t from rfl,
          ih x (by omega) hof.1, iht (by omega) hof.2]
    | null => rfl
    | bool b => rfl
    | int m => rfl
    | str s => rfl

theorem pyEq_objFree_refl {a : JVal} (h : objFreeB a = true) : pyEqJ a a = true :=
  (pyEq_iff_view (jsize a) a a (le_refl _) h h).mpr rfl

theorem pyEq_objFree_symm {a b : JVal} (ha : objFreeB a = true) (hb : objFreeB b = true)
    (h : pyEqJ a b = true) : pyEqJ b a = true :=
  (pyEq_iff_view (jsize b) b a (le_refl _) hb ha).mpr
    ((pyEq_iff_view (jsize a) a b (le_refl _) ha hb).mp h).symm

theorem lookupP_mem {k : PKey} : ∀ {fs : List (PKey × PyVal)} {w : PyVal},
    lookupP k fs = some w → (k, w) ∈ fs := by
  intro fs
  induction fs with
  | nil => intro w h; cases h
  | cons e t ih =>
    intro w h
    obtain ⟨k₁, v₁⟩ := e
    rw [show lookupP k ((k₁, v₁) :: t) = (if k₁ = k then some v₁ else lookupP k t)
      from rfl] at h
    by_cases hk : k₁ = k
    · rw [if_pos hk] at h
      cases h
      simp [hk]
    · rw [if_neg hk] at h
      exact List.mem_cons_of_mem _ (ih h)

theorem pairs_eq_of_key_eq {κ β : Type} : ∀ {l : List (κ × β)} {a b : κ × β},
    (l.map Prod.fst).Nodup → a ∈ l → b ∈ l → a.1 = b.1 → a = b := by
  intro l
  induction l with
  | nil => intro a b _ ha _ _; cases ha
  | cons e t ih =>
    intro a b hnd ha hb hk
    rw [List.map_cons, List.nodup_cons] at hnd
    rcases List.mem_cons.mp ha with hae | ha <;> rcases List.mem_cons.mp hb with hbe | hb
    · rw [hae, hbe]
    · exact absurd ((hae ▸ hk : e.1 = b.1) ▸ List.mem_map_of_mem Prod.fst hb) hnd.1
    · exact absurd ((hbe ▸ hk : a.1 = e.1).symm ▸ List.mem_map_of_mem Prod.fst ha) hnd.1
    · exact ih hnd.2 ha hb hk

theorem pickWith_perm {r : α → Bool} : ∀ {ys ys₂ : List α}, pickWith r ys = some ys₂ →
    ∃ y, y ∈ ys ∧ r y = true ∧ ys.Perm (y :: ys₂) := by
  intro ys
  induction ys with
  | nil => intro ys₂ h; cases h
  | cons z t ih =>
    intro ys₂ h
    rw [show pickWith r (z :: t) = (if r z then some t else (pickWith r t).map (z :: ·))
      from rfl] at h
    by_cases hz : r z = true
    · rw [if_pos hz] at h
      cases h
      exact ⟨z, by simp, hz, List.Perm.refl _⟩
    · rw [Bool.not_eq_true] at hz
      rw [hz, if_neg (by simp), Option.map_eq_some'] at h
      obtain ⟨t₂, ht₂, rfl⟩ := h
      obtain ⟨y, hy, hr, hp⟩ := ih ht₂
      exact ⟨y, by simp [hy], hr, (hp.cons z).trans (List.Perm.swap y z t₂)⟩

theorem setMatch_forall₂ {r : α → α → Bool} : ∀ (xs ys : List α),
    setMatch r xs ys = true →
    ∃ ys', ys.Perm ys' ∧ List.Forall₂ (fun x y => r x y = true) xs ys' := by
  intro xs
  induction xs with
  | nil =>
    intro ys h
    cases ys with
    | nil => exact ⟨[], List.Perm.refl _, List.Forall₂.nil⟩
    | cons z t => cases h
  | cons x t ih =>
    intro ys h
    rw [show setMatch r (x :: t) ys =
      (match pickWith (r x) ys with
       | some ys₂ => setMatch r t ys₂
       | Option.none => false) from rfl] at h
    cases hp : pickWith (r x) ys with
    | none => rw [hp] at h; cases h
    | some ys₂ =>
      rw [hp] at h
      obtain ⟨y, _, hr, hperm⟩ := pickWith_perm hp
      obtain ⟨ys₂', hp₂, hf₂⟩ := ih ys₂ h
      exact ⟨y :: ys₂', hperm.trans (hp₂.cons y), List.Forall₂.cons hr hf₂⟩

theorem normList_forall₂ : ∀ {xs : List PyVal} {js : List JVal},
    normList xs = some js ↔ List.Forall₂ (fun x j => normalize x = some j) xs js := by
  intro xs
  induction xs with
  | nil =>
    intro js
    constructor
    · intro h; cases h; exact List.Forall₂.nil
    · intro h; cases h; rfl
  | cons x t ih =>
    intro js
    constructor
    · intro h
      rw [show normList (x :: t) =
        (match normalize x, normList t with
         | some j, some js => some (j :: js)
         | _, _ => Option.none) from rfl] at h
      cases hx : normalize x with
      | none => rw [hx] at h; cases h
      | some j =>
        cases ht : normList t with
        | none => rw [hx, ht] at h; cases h
        | some js₁ =>
          rw [hx, ht] at h
          cases h
          exact List.Forall₂.cons hx (ih.mp ht)
    · intro h
      cases h with
      | cons hx ht =>
        rw [show normList (x :: t) =
          (match normalize x, normList t with
           | some j, some js => some (j :: js)
           | _, _ => Option.none) from rfl, hx, ih.mpr ht]

theorem normEntries_forall₂ : ∀ {es : List (PKey × PyVal)} {kvs : List (String × JVal)},
    normEntries es = some kvs ↔
      List.Forall₂ (fun e kv => e.1.toStr = kv.1 ∧ normalize e.2 = some kv.2) es kvs := by
  intro es
  induction es with
  | nil =>
    intro kvs
    constructor
    · intro h; cases h; exact List.Forall₂.nil
    · intro h; cases h; rfl
  | cons e t ih =>
    intro kvs
    obtain ⟨k, v⟩ := e
    constructor
    · intro h
      rw [show normEntries ((k, v) :: t) =
        (match normalize v, normEntries t with
         | some j, some js => some ((k.toStr, j) :: js)
         | _, _ => Option.none) from rfl] at h
      cases hx : normalize v with
      | none => rw [hx] at h; cases h
      | some j =>
        cases ht : normEntries t with
        | none => rw [hx, ht] at h; cases h
        | some kvs₁ =>
          rw [hx, ht] at h
          cases h
          exact List.Forall₂.cons ⟨rfl, hx⟩ (ih.mp ht)
    · intro h
      cases h with
      | cons hx ht =>
        rw [show normEntries ((k, v) :: t) =
          (match normalize v, normEntries t with
           | some j, some js => some ((k.toStr, j) :: js)
           | _, _ => Option.none) from rfl, hx.2, ih.mpr ht]
        rename_i kv _
        rw [show ((k, v) : PKey × PyVal).1.toStr = kv.1 from hx.1]

theorem forall₂_perm_left {R : α → β → Prop} :
    ∀ {xs xs' : List α}, xs.Perm xs' → ∀ {ys : List β}, List.Forall₂ R xs ys →
    ∃ ys', ys.Perm ys' ∧ List.Forall₂ R xs' ys' := by
  intro xs xs' hp
  induction hp with
  | nil =>
    intro ys h
    cases h
    exact ⟨[], List.Perm.refl _, List.Forall₂.nil⟩
  | cons x hp ih =>
    intro ys h
    cases h with
    | cons hx ht =>
      obtain ⟨ys', hp', hf'⟩ := ih ht
      exact ⟨_ :: ys', hp'.cons _, List.Forall₂.cons hx hf'⟩
  | swap x y t =>
    intro ys h
    cases h
    rename_i b ys₁ hy ht
    cases ht
    rename_i c ys₂ hx htt
    exact ⟨c :: b :: ys₂, List.Perm.swap c b ys₂, List.Forall₂.cons hx
      (List.Forall₂.cons hy htt)⟩
  | trans hp₁ hp₂ ih₁ ih₂ =>
    intro ys h
    obtain ⟨ys₁, hq₁, hf₁⟩ := ih₁ h
    obtain ⟨ys₂, hq₂, hf₂⟩ := ih₂ hf₁
    exact ⟨ys₂, hq₁.trans hq₂, hf₂⟩

theorem forall₂_right_unique {R : α → β → Prop}
    (hfun : ∀ a b c, R a b → R a c → b = c) :
    ∀ {xs : List α} {ys zs : List β}, List.Forall₂ R xs ys → List.Forall₂ R xs zs →
    ys = zs := by
  intro xs
  induction xs with
  | nil =>
    intro ys zs h₁ h₂
    cases h₁
    cases h₂
    rfl
  | cons x t ih =>
    intro ys zs h₁ h₂
    cases h₁ with
    | cons hy ht₁ =>
      cases h₂ with
      | cons hz ht₂ =>
        rw [hfun x _ _ hy hz, ih ht₁ ht₂]

theorem forall₂_compose {R : α → β → Prop} {S : α → γ → Prop} {T : β → γ → Prop}
    (hc : ∀ a b c, R a b → S a c → T b c) :
    ∀ {xs : List α} {ys : List β} {zs : List γ},
    List.Forall₂ R xs ys → List.Forall₂ S xs zs → List.Forall₂ T ys zs := by
  intro xs
  induction xs with
  | nil =>
    intro ys zs h₁ h₂
    cases h₁
    cases h₂
    exact List.Forall₂.nil
  | cons x t ih =>
    intro ys zs h₁ h₂
    cases h₁ with
    | cons hy ht₁ =>
      cases h₂ with
      | cons hz ht₂ =>
        exact List.Forall₂.cons (hc x _ _ hy hz) (ih ht₁ ht₂)

theorem pyDepth_pos : ∀ x : PyVal, 1 ≤ pyDepth x := by
  intro x
  cases x <;> simp [pyDepth]

theorem pyDepthList_mem : ∀ {xs : List PyVal} {x : PyVal}, x ∈ xs →
    pyDepth x ≤ pyDepthList xs := by
  intro xs
  induction xs with
  | nil => intro x h; cases h
  | cons y ys ih =>
    intro x h
    rw [show pyDepthList (y :: ys) = max (pyDepth y) (pyDepthList ys) from rfl]
    rcases List.mem_cons.mp h with rfl | h
    · exact le_max_left _ _
    · exact le_trans (ih h) (le_max_right _ _)

theorem hashable_norm_objFree : ∀ (n : Nat) (x : PyVal), pyDepth x ≤ n →
    hashableB x = true → ∀ {j : JVal}, normalize x = some j → objFreeB j = true := by
  intro n
  induction n with
  | zero => intro x hx _; have := pyDepth_pos x; omega
  | succ n ih =>
    intro x hx hh j hj
    have hlist : ∀ (xs : List PyVal) (js : List JVal), pyDepthList xs ≤ n →
        hashableListB xs = true → normList xs = some js → objFreeListB js = true := by
      intro xs
      induction xs with
      | nil => intro js _ _ hjs; cases hjs; rfl
      | cons x t iht =>
        intro js hd hh hjs
        rw [show pyDepthList (x :: t) = max (pyDepth x) (pyDepthList t) from rfl] at hd
        rw [show hashableListB (x :: t) = (hashableB x && hashableListB t) from rfl,
          Bool.and_eq_true] at hh
        rw [show normList (x :: t) =
          (match normalize x, normList t with
           | some j, some js => some (j :: js)
           | _, _ => Option.none) from rfl] at hjs
        cases hx₁ : normalize x with
        | none => rw [hx₁] at hjs; cases hjs
        | some j₁ =>
          cases ht₁ : normList t with
          | none => rw [hx₁, ht₁] at hjs; cases hjs
          | some js₁ =>
            rw [hx₁, ht₁] at hjs
            cases hjs
            rw [show objFreeListB (j₁ :: js₁) = (objFreeB j₁ && objFreeListB js₁) from rfl,
              Bool.and_eq_true]
            exact ⟨ih x (by omega) hh.1 hx₁, iht js₁ (by omega) hh.2 ht₁⟩
    cases x with
    | list xs => exact absurd hh fun h => Bool.noConfusion (show false = true from h)
    | set xs => exact absurd hh fun h => Bool.noConfusion (show false = true from h)
    | dict es => exact absurd hh fun h => Bool.noConfusion (show false = true from h)
    | none => cases hj; rfl
    | bool b => cases hj; rfl
    | int m => cases hj; rfl
    | str s => cases hj; rfl
    | path s => cases hj; rfl
    | tuple xs =>
      rw [show normalize (.tuple xs) = (normList xs).map .arr from rfl,
        Option.map_eq_some'] at hj
      obtain ⟨js, hjs, rfl⟩ := hj
      rw [show pyDepth (PyVal.tuple xs) = pyDepthList xs + 1 from rfl] at hx
      rw [show hashableB (.tuple xs) = hashableListB xs from rfl] at hh
      rw [show objFreeB (.arr js) = objFreeListB js from rfl]
      exact hlist xs js (by omega) hh hjs

theorem semEq_hashable_norm : ∀ (f : Nat) (x y : PyVal), hashableB x = true →
    hashableB y = true → semEqbF f x y = true →
    ∃ j, normalize x = some j ∧ normalize y = some j := by
  intro f
  induction f with
  | zero => intro x y _ _ h; cases h
  | succ f ih =>
    have hlist : ∀ xs ys : List PyVal, hashableListB xs = true →
        hashableListB ys = true → xs.length = ys.length →
        ((xs.zip ys).all fun p => semEqbF f p.1 p.2) = true →
        ∃ js, normList xs = some js ∧ normList ys = some js := by
      intro xs
      induction xs with
      | nil =>
        intro ys _ _ hlen _
        cases ys with
        | nil => exact ⟨[], rfl, rfl⟩
        | cons y t => cases hlen
      | cons x t iht =>
        intro ys hx hy hlen hall
        cases ys with
        | nil => cases hlen
        | cons y u =>
          rw [show hashableListB (x :: t) = (hashableB x && hashableListB t) from rfl,
            Bool.and_eq_true] at hx
          rw [show hashableListB (y :: u) = (hashableB y && hashableListB u) from rfl,
            Bool.and_eq_true] at hy
          rw [List.zip_cons_cons, List.all_cons, Bool.and_eq_true] at hall
          obtain ⟨j, hj₁, hj₂⟩ := ih x y hx.1 hy.1 hall.1
          obtain ⟨js, hjs₁, hjs₂⟩ := iht u hx.2 hy.2 (by simpa using hlen) hall.2
          refine ⟨j :: js, ?_, ?_⟩
          · rw [show normList (x :: t) =
              (match normalize x, normList t with
               | some j, some js => some (j :: js)
               | _, _ => Option.none) from rfl, hj₁, hjs₁]
          · rw [show normList (y :: u) =
              (match normalize y, normList u with
               | some j, some js => some (j :: js)
               | _, _ => Option.none) from rfl, hj₂, hjs₂]
    intro x y hx hy hse
    cases x <;> cases y <;>
      first
        | (exact absurd hx fun h => Bool.noConfusion (show false = true from h))
        | (exact absurd hy fun h => Bool.noConfusion (show false = true from h))
        | (exact absurd hse fun h => Bool.noConfusion (show false = true from h))
        | skip
    case none.none => exact ⟨.null, rfl, rfl⟩
    case bool.bool a b =>
      have hab : a = b := by
        have h := hse
        rw [show semEqbF (f + 1) (.bool a) (.bool b) = (a == b) from rfl] at h
        exact eq_of_beq h
      rw [hab]
      exact ⟨.bool b, rfl, rfl⟩
    case int.int a b =>
      have hab : a = b := by
        have h := hse
        rw [show semEqbF (f + 1) (.int a) (.int b) = (a == b) from rfl] at h
        exact eq_of_beq h
      rw [hab]
      exact ⟨.int b, rfl, rfl⟩
    case str.str a b =>
      have hab : a = b := by
        have h := hse
        rw [show semEqbF (f + 1) (.str a) (.str b) = (a == b) from rfl] at h
        exact eq_of_beq h
      rw [hab]
      exact ⟨.str b, rfl, rfl⟩
    case path.path a b =>
      have hab : a = b := by
        have h := hse
        rw [show semEqbF (f + 1) (.path a) (.path b) = (a == b) from rfl] at h
        exact eq_of_beq h
      rw [hab]
      exact ⟨.str b, rfl, rfl⟩
    case tuple.tuple xs ys =>
      have h := hse
      rw [show semEqbF (f + 1) (.tuple xs) (.tuple ys) =
        (xs.length == ys.length && (xs.zip ys).all fun p => semEqbF f p.1 p.2) from rfl,
        Bool.and_eq_true] at h
      rw [show hashableB (.tuple xs) = hashableListB xs from rfl] at hx
      rw [show hashableB (.tuple ys) = hashableListB ys from rfl] at hy
      obtain ⟨js, hjs₁, hjs₂⟩ := hlist xs ys hx hy (by simpa using h.1) h.2
      refine ⟨.arr js, ?_, ?_⟩
      · rw [show normalize (.tuple xs) = (normList xs).map .arr from rfl, hjs₁]; rfl
      · rw [show normalize (.tuple ys) = (normList ys).map .arr from rfl, hjs₂]; rfl

section OSortNodup

variable {lt : α → α → Option Bool}

/-- Insertion succeeds when the new element is comparable with every
element of the list other than itself and does not occur in the list. -/
theorem oInsert_some_nd {x : α} : ∀ {l : List α}, x ∉ l →
    (∀ y ∈ l, y ≠ x → (lt x y).isSome) → ∃ m, oInsert lt x l = some m := by
  intro l
  induction l with
  | nil => exact fun _ _ => ⟨[x], rfl⟩
  | cons y ys ih =>
    intro hnm hsome
    simp only [oInsert]
    cases hc : lt x y with
    | none =>
      have := hsome y (by simp) (by intro h; exact hnm (by simp [h]))
      rw [hc] at this
      cases this
    | some b =>
      cases b with
      | true => exact ⟨x :: y :: ys, rfl⟩
      | false =>
        obtain ⟨m, hm⟩ := ih (fun h => hnm (by simp [h]))
          fun z hz hne => hsome z (by simp [hz]) hne
        exact ⟨y :: m, by rw [hm]; rfl⟩

/-- Successful insertion into a sorted duplicate-free list keeps it
sorted; the order laws are only assumed on distinct pairs. -/
theorem oInsert_sorted_nd {x : α} : ∀ {l m : List α},
    l.Nodup → x ∉ l →
    (∀ y ∈ l, y ≠ x → (lt y x).isSome) →
    (∀ y ∈ l, y ≠ x → lt x y = some true → lt y x = some false) →
    (∀ w ∈ l, ∀ y ∈ l, w ≠ x → y ≠ x → w ≠ y →
      lt w x = some true → lt x y = some true → lt w y = some true) →
    l.Pairwise (fun a b => lt b a = some false) →
    oInsert lt x l = some m → m.Pairwise (fun a b => lt b a = some false) := by
  intro l
  induction l with
  | nil =>
    intro m _ _ _ _ _ _ h
    cases h
    simp
  | cons e es ih =>
    intro m hnd hnm hsome hasym htrans hp h
    rw [List.nodup_cons] at hnd
    have hex : e ≠ x := fun h => hnm (by simp [h])
    simp only [oInsert] at h
    cases hc : lt x e with
    | none => rw [hc] at h; cases h
    | some b =>
      rw [hc] at h
      cases b with
      | true =>
        simp only at h
        cases h
        rw [List.pairwise_cons] at hp ⊢
        refine ⟨?_, List.pairwise_cons.mpr hp⟩
        intro w hw
        rcases List.mem_cons.mp hw with rfl | hw
        · exact hasym _ (by simp) hex hc
        · have hwe : lt w e = some false := hp.1 w hw
          have hwx : w ≠ x := fun h => hnm (List.mem_cons_of_mem e (h ▸ hw))
          have hwene : w ≠ e := fun h => hnd.1 (h ▸ hw)
          have hs : (lt w x).isSome := hsome w (by simp [hw]) hwx
          cases hwxc : lt w x with
          | none => rw [hwxc] at hs; cases hs
          | some bb =>
            cases bb with
            | false => rfl
            | true =>
              have := htrans w (by simp [hw]) e (by simp) hwx hex hwene hwxc hc
              rw [this] at hwe
              cases hwe
      | false =>
        simp only [Option.map_eq_some'] at h
        obtain ⟨m₁, hm₁, rfl⟩ := h
        rw [List.pairwise_cons] at hp
        have hm₁p : m₁.Pairwise (fun a b => lt b a = some false) :=
          ih hnd.2 (fun h => hnm (by simp [h]))
            (fun z hz hne => hsome z (by simp [hz]) hne)
            (fun z hz hne ht => hasym z (by simp [hz]) hne ht)
            (fun w hw z hz h₁ h₂ h₃ h₄ h₅ =>
              htrans w (by simp [hw]) z (by simp [hz]) h₁ h₂ h₃ h₄ h₅)
            hp.2 hm₁
        rw [List.pairwise_cons]
        refine ⟨?_, hm₁p⟩
        intro z hz
        have hz₂ : z ∈ x :: es := (oInsert_perm hm₁).mem_iff.mp hz
        rcases List.mem_cons.mp hz₂ with rfl | hz₂
        · exact hc
        · exact hp.1 z hz₂

/-- Combined sort specification over a duplicate-free input, with the
order laws assumed only on distinct pairs. -/
theorem osortAux_spec_nd : ∀ (l acc : List α),
    (acc ++ l).Nodup →
    (∀ a ∈ acc ++ l, ∀ b ∈ acc ++ l, a ≠ b → (lt a b).isSome) →
    (∀ a ∈ acc ++ l, ∀ b ∈ acc ++ l, a ≠ b → lt a b = some true → lt b a = some false) →
    (∀ a ∈ acc ++ l, ∀ b ∈ acc ++ l, ∀ c ∈ acc ++ l, a ≠ b → b ≠ c → a ≠ c →
      lt a b = some true → lt b c = some true → lt a c = some true) →
    acc.Pairwise (fun a b => lt b a = some false) →
    ∃ m, osortAux lt acc l = some m ∧ m.Perm (acc ++ l) ∧
      m.Pairwise (fun a b => lt b a = some false) := by
  intro l
  induction l with
  | nil =>
    intro acc _ _ _ _ hp
    exact ⟨acc, rfl, by simp, hp⟩
  | cons x t ih =>
    intro acc hnd hsome hasym htrans hp
    have hxmem : x ∈ acc ++ x :: t := by simp
    have hxacc : x ∉ acc := by
      intro hx
      have := (List.nodup_append.mp hnd).2.2
      exact this hx (by simp)
    have haccnd : acc.Nodup := (List.nodup_append.mp hnd).1
    obtain ⟨m₁, hm₁⟩ := oInsert_some_nd hxacc
      (fun y hy hne => hsome x hxmem y (by simp [hy]) (Ne.symm hne))
    have hperm₁ : m₁.Perm (x :: acc) := oInsert_perm hm₁
    have hm₁p : m₁.Pairwise (fun a b => lt b a = some false) :=
      oInsert_sorted_nd haccnd hxacc
        (fun y hy hne => hsome y (by simp [hy]) x hxmem hne)
        (fun y hy hne ht => hasym x hxmem y (by simp [hy]) (Ne.symm hne) ht)
        (fun w hw y hy h₁ h₂ h₃ h₄ h₅ =>
          htrans w (by simp [hw]) x hxmem y (by simp [hy]) h₁ (Ne.symm h₂) h₃ h₄ h₅)
        hp hm₁
    have hpermfull : (m₁ ++ t).Perm (acc ++ x :: t) :=
      (hperm₁.append_right t).trans List.perm_middle.symm
    have hmemiff : ∀ z, z ∈ m₁ ++ t ↔ z ∈ acc ++ x :: t :=
      fun z => hpermfull.mem_iff
    obtain ⟨m, hm, hmp, hms⟩ := ih m₁
      (hpermfull.nodup_iff.mpr hnd)
      (fun a ha b hb => hsome a ((hmemiff a).mp ha) b ((hmemiff b).mp hb))
      (fun a ha b hb => hasym a ((hmemiff a).mp ha) b ((hmemiff b).mp hb))
      (fun a ha b hb c hc => htrans a ((hmemiff a).mp ha) b ((hmemiff b).mp hb)
        c ((hmemiff c).mp hc))
      hm₁p
    refine ⟨m, ?_, ?_, hms⟩
    · simp only [osortAux, hm₁]
      exact hm
    · exact hmp.trans hpermfull

/-- `osort` on a duplicate-free list whose distinct pairs satisfy the
order laws: a sorted permutation is returned. -/
theorem osort_spec_nd {l : List α} (hnd : l.Nodup)
    (hsome : ∀ a ∈ l, ∀ b ∈ l, a ≠ b → (lt a b).isSome)
    (hasym : ∀ a ∈ l, ∀ b ∈ l, a ≠ b → lt a b = some true → lt b a = some false)
    (htrans : ∀ a ∈ l, ∀ b ∈ l, ∀ c ∈ l, a ≠ b → b ≠ c → a ≠ c →
      lt a b = some true → lt b c = some true → lt a c = some true) :
    ∃ m, osort lt l = some m ∧ m.Perm l ∧
      m.Pairwise (fun a b => lt b a = some false) := by
  have h := @osortAux_spec_nd _ lt l [] (by simpa using hnd)
    (by simpa using hsome) (by simpa using hasym) (by simpa using htrans)
    (List.Pairwise.nil)
  simpa [osort] using h

end OSortNodup

theorem cdB_elim {a b : JVal} (h : cdB a b = true) :
    (pyLtJ a b).isSome = true ∧ (pyLtJ b a).isSome = true ∧ pyEqJ a b = false := by
  simp only [cdB, Bool.and_eq_true, Bool.not_eq_true'] at h
  exact ⟨h.1.1, h.1.2, h.2⟩

theorem cd_pairs {js : List JVal} (hof : objFreeListB js = true)
    (hpw : pairwiseB cdB js = true) :
    ∀ a ∈ js, ∀ b ∈ js, a ≠ b →
      (pyLtJ a b).isSome = true ∧ pyEqJ a b = false := by
  have hP : js.Pairwise fun a b => cdB a b = true := pairwiseB_iff.mp hpw
  have hR : js.Pairwise fun a b => cdB a b = true ∨ cdB b a = true :=
    hP.imp Or.inl
  have hsym : Symmetric (fun a b : JVal => cdB a b = true ∨ cdB b a = true) :=
    fun a b h => h.symm
  intro a ha b hb hne
  rcases hR.forall hsym ha hb hne with h | h
  · obtain ⟨h₁, -, h₃⟩ := cdB_elim h
    exact ⟨h₁, h₃⟩
  · obtain ⟨-, h₂, h₃⟩ := cdB_elim h
    refine ⟨h₂, ?_⟩
    cases hq : pyEqJ a b with
    | false => rfl
    | true =>
      have := pyEq_objFree_symm (objFreeListB_mem hof ha) (objFreeListB_mem hof hb) hq
      rw [this] at h₃
      cases h₃

theorem cd_nodup {js : List JVal} (hof : objFreeListB js = true)
    (hpw : pairwiseB cdB js = true) : js.Nodup := by
  have hP : js.Pairwise fun a b => cdB a b = true := pairwiseB_iff.mp hpw
  refine List.Pairwise.imp_of_mem ?_ hP
  intro a b ha hb hcd hab
  obtain ⟨-, -, h₃⟩ := cdB_elim hcd
  rw [hab, pyEq_objFree_refl (objFreeListB_mem hof hb)] at h₃
  cases h₃

theorem cd_asym {a b : JVal} (ha : objFreeB a = true) (hb : objFreeB b = true)
    (h : pyLtJ a b = some true) : pyLtJ b a = some false := by
  rw [pyLt_view (jsize a) a b (le_refl _) ha hb] at h
  rw [pyLt_view (jsize b) b a (le_refl _) hb ha]
  exact pyLt_viewed_asymm (jsize (jview a)) _ _ (le_refl _)
    (jview_objFree_viewed (jsize a) a (le_refl _) ha)
    (jview_objFree_viewed (jsize b) b (le_refl _) hb) h

theorem cd_trans {a b c : JVal} (ha : objFreeB a = true) (hb : objFreeB b = true)
    (hc : objFreeB c = true) (h₁ : pyLtJ a b = some true)
    (h₂ : pyLtJ b c = some true) : pyLtJ a c = some true := by
  rw [pyLt_view (jsize a) a b (le_refl _) ha hb] at h₁
  rw [pyLt_view (jsize b) b c (le_refl _) hb hc] at h₂
  rw [pyLt_view (jsize a) a c (le_refl _) ha hc]
  exact pyLt_viewed_trans (jsize (jview a) + jsize (jview b) + jsize (jview c))
    _ _ _ (le_refl _)
    (jview_objFree_viewed (jsize a) a (le_refl _) ha)
    (jview_objFree_viewed (jsize b) b (le_refl _) hb)
    (jview_objFree_viewed (jsize c) c (le_refl _) hc) h₁ h₂

theorem cd_conn {a b : JVal} (ha : objFreeB a = true) (hb : objFreeB b = true)
    (h₁ : pyLtJ a b = some false) (h₂ : pyLtJ b a = some false) :
    pyEqJ a b = true := by
  rw [pyLt_view (jsize a) a b (le_refl _) ha hb] at h₁
  rw [pyLt_view (jsize b) b a (le_refl _) hb ha] at h₂
  have hv := pyLt_viewed_conn (jsize (jview a)) _ _ (le_refl _)
    (jview_objFree_viewed (jsize a) a (le_refl _) ha)
    (jview_objFree_viewed (jsize b) b (le_refl _) hb) h₁ h₂
  exact (pyEq_iff_view (jsize a) a b (le_refl _) ha hb).mpr hv

/-- The sort of a well-formed set is insensitive to iteration order: two
permuted duplicate-free, pairwise-comparable element lists sort to the
same list. -/
theorem set_sort_unique {js ks : List JVal}
    (hof₁ : objFreeListB js = true) (hof₂ : objFreeListB ks = true)
    (hpw₁ : pairwiseB cdB js = true) (hpw₂ : pairwiseB cdB ks = true)
    (hperm : js.Perm ks) :
    ∃ m, osort pyLtJ js = some m ∧ osort pyLtJ ks = some m := by
  obtain ⟨m₁, h₁, p₁, s₁⟩ := @osort_spec_nd _ pyLtJ _ (cd_nodup hof₁ hpw₁)
    (fun a ha b hb hne => (cd_pairs hof₁ hpw₁ a ha b hb hne).1)
    (fun a ha b hb _ ht => cd_asym (objFreeListB_mem hof₁ ha)
      (objFreeListB_mem hof₁ hb) ht)
    (fun a ha b hb c hc _ _ _ ht₁ ht₂ => cd_trans (objFreeListB_mem hof₁ ha)
      (objFreeListB_mem hof₁ hb) (objFreeListB_mem hof₁ hc) ht₁ ht₂)
  obtain ⟨m₂, h₂, p₂, s₂⟩ := @osort_spec_nd _ pyLtJ _ (cd_nodup hof₂ hpw₂)
    (fun a ha b hb hne => (cd_pairs hof₂ hpw₂ a ha b hb hne).1)
    (fun a ha b hb _ ht => cd_asym (objFreeListB_mem hof₂ ha)
      (objFreeListB_mem hof₂ hb) ht)
    (fun a ha b hb c hc _ _ _ ht₁ ht₂ => cd_trans (objFreeListB_mem hof₂ ha)
      (objFreeListB_mem hof₂ hb) (objFreeListB_mem hof₂ hc) ht₁ ht₂)
  have hmm : m₁.Perm m₂ := p₁.trans (hperm.trans p₂.symm)
  have heq : m₁ = m₂ := by
    refine perm_sorted_unique hmm s₁ s₂ ?_
    intro a ha b hb hab hba
    by_contra hne
    have ha' : a ∈ js := p₁.mem_iff.mp ha
    have hb' : b ∈ js := p₁.mem_iff.mp hb
    have hofa := objFreeListB_mem hof₁ ha'
    have hofb := objFreeListB_mem hof₁ hb'
    have hq := cd_conn hofa hofb hba hab
    have := (cd_pairs hof₁ hpw₁ a ha' b hb' hne).2
    rw [hq] at this
    cases this
  exact ⟨m₁, h₁, heq ▸ h₂⟩

theorem normList_hashable_objFree : ∀ {xs : List PyVal} {js : List JVal},
    hashableListB xs = true → normList xs = some js → objFreeListB js = true := by
  intro xs
  induction xs with
  | nil => intro js _ h; cases h; rfl
  | cons x t ih =>
    intro js hh hjs
    rw [show hashableListB (x :: t) = (hashableB x && hashableListB t) from rfl,
      Bool.and_eq_true] at hh
    rw [show normList (x :: t) =
      (match normalize x, normList t with
       | some j, some js => some (j :: js)
       | _, _ => Option.none) from rfl] at hjs
    cases hx : normalize x with
    | none => rw [hx] at hjs; cases hjs
    | some j =>
      cases ht : normList t with
      | none => rw [hx, ht] at hjs; cases hjs
      | some js₁ =>
        rw [hx, ht] at hjs
        cases hjs
        rw [show objFreeListB (j :: js₁) = (objFreeB j && objFreeListB js₁) from rfl,
          Bool.and_eq_true]
        exact ⟨hashable_norm_objFree (pyDepth x) x (le_refl _) hh.1 hx, ih hh.2 ht⟩

theorem upsertE_notmem {k : String} {v : JVal} : ∀ {acc : List (String × JVal)},
    k ∉ acc.map Prod.fst → upsertE k v acc = acc ++ [(k, v)] := by
  intro acc
  induction acc with
  | nil => intro _; rfl
  | cons e t ih =>
    intro hk
    obtain ⟨k₁, v₁⟩ := e
    rw [List.map_cons, List.mem_cons] at hk
    rw [show upsertE k v ((k₁, v₁) :: t) =
      (if k₁ = k then (k₁, v) :: t else (k₁, v₁) :: upsertE k v t) from rfl,
      if_neg (fun h => hk (Or.inl h.symm)), ih (fun h => hk (Or.inr h)), List.cons_append]

theorem collapse_go : ∀ (l acc : List (String × JVal)),
    (((acc ++ l).map Prod.fst)).Nodup →
    l.foldl (fun acc kv => upsertE kv.1 kv.2 acc) acc = acc ++ l := by
  intro l
  induction l with
  | nil => intro acc _; simp
  | cons e t ih =>
    intro acc hnd
    obtain ⟨k, v⟩ := e
    rw [List.foldl_cons]
    have hk : k ∉ acc.map Prod.fst := by
      intro hmem
      rw [List.map_append, List.nodup_append] at hnd
      exact hnd.2.2 hmem (by simp)
    rw [show upsertE ((k, v) : String × JVal).1 (k, v).2 acc = upsertE k v acc from rfl,
      upsertE_notmem hk]
    have hnd₂ : (((acc ++ [(k, v)]) ++ t).map Prod.fst).Nodup := by
      rw [List.append_assoc]
      exact hnd
    rw [ih (acc ++ [(k, v)]) hnd₂, List.append_assoc]
    rfl

/-- When the coerced keys are pairwise distinct, the dict comprehension
keeps the entries unchanged. -/
theorem collapseEntries_nodup {l : List (String × JVal)}
    (hnd : (l.map Prod.fst).Nodup) : collapseEntries l = l := by
  have h := collapse_go l [] (by simpa using hnd)
  simpa [collapseEntries] using h

theorem normEntries_keys : ∀ {es : List (PKey × PyVal)} {kvs : List (String × JVal)},
    normEntries es = some kvs → kvs.map Prod.fst = es.map fun e => e.1.toStr := by
  intro es kvs h
  have hf := normEntries_forall₂.mp h
  clear h
  induction hf with
  | nil => rfl
  | cons hr ht ih =>
    rw [List.map_cons, List.map_cons, ih, hr.1]

theorem normEntries_mem : ∀ {es : List (PKey × PyVal)} {kvs : List (String × JVal)}
    {k : PKey} {v : PyVal}, normEntries es = some kvs → (k, v) ∈ es →
    ∃ j, normalize v = some j ∧ (k.toStr, j) ∈ kvs := by
  intro es kvs k v h hm
  have hf := normEntries_forall₂.mp h
  clear h
  induction hf with
  | nil => cases hm
  | cons hr ht ih =>
    rcases List.mem_cons.mp hm with he | hm₂
    · rename_i e kv _ _
      refine ⟨kv.2, ?_, ?_⟩
      · rw [show v = ((k, v) : PKey × PyVal).2 from rfl, he]
        exact hr.2
      · rw [show k.toStr = ((k, v) : PKey × PyVal).1.toStr from rfl, he, hr.1]
        simp
    · obtain ⟨j, hj, hjm⟩ := ih hm₂
      exact ⟨j, hj, List.mem_cons_of_mem _ hjm⟩

theorem normEntries_mem_rev : ∀ {es : List (PKey × PyVal)} {kvs : List (String × JVal)}
    {s : String} {j : JVal}, normEntries es = some kvs → (s, j) ∈ kvs →
    ∃ k v, (k, v) ∈ es ∧ k.toStr = s ∧ normalize v = some j := by
  intro es kvs s j h hm
  have hf := normEntries_forall₂.mp h
  clear h
  induction hf with
  | nil => cases hm
  | cons hr ht ih =>
    rcases List.mem_cons.mp hm with he | hm₂
    · rename_i e kv _ _
      refine ⟨e.1, e.2, by simp, ?_, ?_⟩
      · rw [hr.1, ← he]
      · rw [hr.2, ← he]
    · obtain ⟨k, v, hkv, hs, hv⟩ := ih hm₂
      exact ⟨k, v, List.mem_cons_of_mem _ hkv, hs, hv⟩

/-- Two permuted entry lists with duplicate-free keys have the same
key-sorted form. -/
theorem sortE_perm_unique {l₁ l₂ : List (String × JVal)} (hperm : l₁.Perm l₂)
    (hnd : (l₁.map Prod.fst).Nodup) : sortE l₁ = sortE l₂ := by
  refine perm_sorted_unique
    ((List.perm_insertionSort _ l₁).trans (hperm.trans (List.perm_insertionSort _ l₂).symm))
    (List.sorted_insertionSort _ l₁) (List.sorted_insertionSort _ l₂) ?_
  intro a ha b hb hab hba
  have ha' : a ∈ l₁ := (List.perm_insertionSort _ l₁).mem_iff.mp ha
  have hb' : b ∈ l₁ := (List.perm_insertionSort _ l₁).mem_iff.mp hb
  exact pairs_eq_of_key_eq hnd ha' hb' (pyStrLt_conn hba hab)

theorem osort_cd {js : List JVal} (hof : objFreeListB js = true)
    (hpw : pairwiseB cdB js = true) :
    ∃ m, osort pyLtJ js = some m ∧ m.Perm js ∧
      m.Pairwise (fun a b => pyLtJ b a = some false) :=
  osort_spec_nd (cd_nodup hof hpw)
    (fun a ha b hb hne => (cd_pairs hof hpw a ha b hb hne).1)
    (fun a ha b hb _ ht => cd_asym (objFreeListB_mem hof ha)
      (objFreeListB_mem hof hb) ht)
    (fun a ha b hb c hc _ _ _ ht₁ ht₂ => cd_trans (objFreeListB_mem hof ha)
      (objFreeListB_mem hof hb) (objFreeListB_mem hof hc) ht₁ ht₂)

theorem wf_norm_total : ∀ (n : Nat) (x : PyVal), pyDepth x ≤ n → wf x = true →
    ∃ j, normalize x = some j := by
  intro n
  induction n with
  | zero => intro x hx _; have := pyDepth_pos x; omega
  | succ n ih =>
    intro x hx hw
    have hlist : ∀ (xs : List PyVal), pyDepthList xs ≤ n → wfList xs = true →
        ∃ js, normList xs = some js := by
      intro xs
      induction xs with
      | nil => intro _ _; exact ⟨[], rfl⟩
      | cons x t iht =>
        intro hd hwl
        rw [show pyDepthList (x :: t) = max (pyDepth x) (pyDepthList t) from rfl] at hd
        rw [show wfList (x :: t) = (wf x && wfList t) from rfl, Bool.and_eq_true] at hwl
        obtain ⟨j, hj⟩ := ih x (by omega) hwl.1
        obtain ⟨js, hjs⟩ := iht (by omega) hwl.2
        exact ⟨j :: js, by
          rw [show normList (x :: t) =
            (match normalize x, normList t with
             | some j, some js => some (j :: js)
             | _, _ => Option.none) from rfl, hj, hjs]⟩
    have hentries : ∀ (es : List (PKey × PyVal)), pyDepthEntries es ≤ n →
        wfEntries es = true → ∃ kvs, normEntries es = some kvs := by
      intro es
      induction es with
      | nil => intro _ _; exact ⟨[], rfl⟩
      | cons e t iht =>
        intro hd hwe
        obtain ⟨k, v⟩ := e
        rw [show pyDepthEntries ((k, v) :: t) = max (pyDepth v) (pyDepthEntries t)
          from rfl] at hd
        rw [show wfEntries ((k, v) :: t) = (wf v && wfEntries t) from rfl,
          Bool.and_eq_true] at hwe
        obtain ⟨j, hj⟩ := ih v (by omega) hwe.1
        obtain ⟨kvs, hkvs⟩ := iht (by omega) hwe.2
        exact ⟨(k.toStr, j) :: kvs, by
          rw [show normEntries ((k, v) :: t) =
            (match normalize v, normEntries t with
             | some j, some js => some ((k.toStr, j) :: js)
             | _, _ => Option.none) from rfl, hj, hkvs]⟩
    cases x with
    | none => exact ⟨.null, rfl⟩
    | bool b => exact ⟨.bool b, rfl⟩
    | int m => exact ⟨.int m, rfl⟩
    | str s => exact ⟨.str s, rfl⟩
    | path s => exact ⟨.str s, rfl⟩
    | list xs =>
      rw [show pyDepth (PyVal.list xs) = pyDepthList xs + 1 from rfl] at hx
      rw [show wf (.list xs) = wfList xs from rfl] at hw
      obtain ⟨js, hjs⟩ := hlist xs (by omega) hw
      exact ⟨.arr js, by
        rw [show normalize (.list xs) = (normList xs).map .arr from rfl, hjs]; rfl⟩
    | tuple xs =>
      rw [show pyDepth (PyVal.tuple xs) = pyDepthList xs + 1 from rfl] at hx
      rw [show wf (.tuple xs) = wfList xs from rfl] at hw
      obtain ⟨js, hjs⟩ := hlist xs (by omega) hw
      exact ⟨.arr js, by
        rw [show normalize (.tuple xs) = (normList xs).map .arr from rfl, hjs]; rfl⟩
    | set xs =>
      rw [show wf (.set xs) = (hashableListB xs &&
        (match normList xs with
         | some js => pairwiseB cdB js
         | Option.none => false)) from rfl, Bool.and_eq_true] at hw
      cases hnl : normList xs with
      | none =>
        rw [hnl] at hw
        exact absurd hw.2 fun h => Bool.noConfusion (show false = true from h)
      | some js =>
        rw [hnl] at hw
        have hof := normList_hashable_objFree hw.1 hnl
        obtain ⟨m, hm, -, -⟩ := osort_cd hof hw.2
        exact ⟨.arr m, by
          rw [show normalize (.set xs) =
            (match normList xs with
             | some js => (osort pyLtJ js).map .arr
             | Option.none => Option.none) from rfl, hnl]
          rw [show (match some js with
            | some js => (osort pyLtJ js).map JVal.arr
            | Option.none => Option.none) = (osort pyLtJ js).map JVal.arr from rfl, hm]
          rfl⟩
    | dict es =>
      rw [show pyDepth (PyVal.dict es) = pyDepthEntries es + 1 from rfl] at hx
      rw [show wf (.dict es) = (nodupB (es.map fun kv => kv.1.toStr) && wfEntries es)
        from rfl, Bool.and_eq_true] at hw
      obtain ⟨kvs, hkvs⟩ := hentries es (by omega) hw.2
      exact ⟨.obj (collapseEntries kvs), by
        rw [show normalize (.dict es) =
          (normEntries es).map (fun kvs => .obj (collapseEntries kvs)) from rfl, hkvs]; rfl⟩

theorem forall₂_imp_mem {R S : α → β → Prop} : ∀ {xs : List α} {ys : List β},
    List.Forall₂ R xs ys → (∀ a ∈ xs, ∀ b ∈ ys, R a b → S a b) →
    List.Forall₂ S xs ys := by
  intro xs ys h
  induction h with
  | nil => intro _; exact List.Forall₂.nil
  | cons hr ht ih =>
    intro himp
    exact List.Forall₂.cons (himp _ (by simp) _ (by simp) hr)
      (ih fun a ha b hb hab => himp a (by simp [ha]) b (by simp [hb]) hab)

theorem wfEntries_norm_total : ∀ {es : List (PKey × PyVal)}, wfEntries es = true →
    ∃ kvs, normEntries es = some kvs := by
  intro es
  induction es with
  | nil => intro _; exact ⟨[], rfl⟩
  | cons e t ih =>
    intro hwe
    obtain ⟨k, v⟩ := e
    rw [show wfEntries ((k, v) :: t) = (wf v && wfEntries t) from rfl,
      Bool.and_eq_true] at hwe
    obtain ⟨j, hj⟩ := wf_norm_total (pyDepth v) v (le_refl _) hwe.1
    obtain ⟨kvs, hkvs⟩ := ih hwe.2
    exact ⟨(k.toStr, j) :: kvs, by
      rw [show normEntries ((k, v) :: t) =
        (match normalize v, normEntries t with
         | some j, some js => some ((k.toStr, j) :: js)
         | _, _ => Option.none) from rfl, hj, hkvs]⟩

theorem canonEntries_keys (l : List (String × JVal)) :
    (canonEntries l).map Prod.fst = l.map Prod.fst := by
  rw [canonEntries_eq_map, List.map_map]
  rfl

/-- The heart of C1: two well-formed, semantically equal specification
values normalize successfully and canonicalize to the same JSON tree. -/
theorem canonNorm_eq : ∀ (f : Nat) (a b : PyVal), wf a = true → wf b = true →
    semEqbF f a b = true →
    ∃ ja jb, normalize a = some ja ∧ normalize b = some jb ∧ canon ja = canon jb := by
  intro f
  induction f with
  | zero => intro a b _ _ h; cases h
  | succ f ih =>
    have hlist : ∀ (xs ys : List PyVal), wfList xs = true → wfList ys = true →
        xs.length = ys.length →
        ((xs.zip ys).all fun p => semEqbF f p.1 p.2) = true →
        ∃ js ks, normList xs = some js ∧ normList ys = some ks ∧
          canonList js = canonList ks := by
      intro xs
      induction xs with
      | nil =>
        intro ys _ _ hlen _
        cases ys with
        | nil => exact ⟨[], [], rfl, rfl, rfl⟩
        | cons y t => cases hlen
      | cons x t iht =>
        intro ys hwx hwy hlen hall
        cases ys with
        | nil => cases hlen
        | cons y u =>
          rw [show wfList (x :: t) = (wf x && wfList t) from rfl,
            Bool.and_eq_true] at hwx
          rw [show wfList (y :: u) = (wf y && wfList u) from rfl,
            Bool.and_eq_true] at hwy
          rw [List.zip_cons_cons, List.all_cons, Bool.and_eq_true] at hall
          obtain ⟨j, k, hj, hk, hck⟩ := ih x y hwx.1 hwy.1 hall.1
          obtain ⟨js, ks, hjs, hks, hcks⟩ := iht u hwx.2 hwy.2 (by simpa using hlen) hall.2
          refine ⟨j :: js, k :: ks, ?_, ?_, ?_⟩
          · rw [show normList (x :: t) =
              (match normalize x, normList t with
               | some j, some js => some (j :: js)
               | _, _ => Option.none) from rfl, hj, hjs]
          · rw [show normList (y :: u) =
              (match normalize y, normList u with
               | some j, some js => some (j :: js)
               | _, _ => Option.none) from rfl, hk, hks]
          · rw [show canonList (j :: js) = canon j :: canonList js from rfl,
              show canonList (k :: ks) = canon k :: canonList ks from rfl, hck, hcks]
    intro a b hwa hwb hse
    cases a <;> cases b <;>
      first
        | (exact absurd hse fun h => Bool.noConfusion (show false = true from h))
        | skip
    case none.none => exact ⟨.null, .null, rfl, rfl, rfl⟩
    case bool.bool x y =>
      obtain ⟨j, h₁, h₂⟩ := semEq_hashable_norm (f + 1) (.bool x) (.bool y) rfl rfl hse
      exact ⟨j, j, h₁, h₂, rfl⟩
    case int.int x y =>
      obtain ⟨j, h₁, h₂⟩ := semEq_hashable_norm (f + 1) (.int x) (.int y) rfl rfl hse
      exact ⟨j, j, h₁, h₂, rfl⟩
    case str.str x y =>
      obtain ⟨j, h₁, h₂⟩ := semEq_hashable_norm (f + 1) (.str x) (.str y) rfl rfl hse
      exact ⟨j, j, h₁, h₂, rfl⟩
    case path.path x y =>
      obtain ⟨j, h₁, h₂⟩ := semEq_hashable_norm (f + 1) (.path x) (.path y) rfl rfl hse
      exact ⟨j, j, h₁, h₂, rfl⟩
    case list.list xs ys =>
      rw [show wf (.list xs) = wfList xs from rfl] at hwa
      rw [show wf (.list ys) = wfList ys from rfl] at hwb
      rw [show semEqbF (f + 1) (.list xs) (.list ys) =
        (xs.length == ys.length && (xs.zip ys).all fun p => semEqbF f p.1 p.2) from rfl,
        Bool.and_eq_true] at hse
      obtain ⟨js, ks, hjs, hks, hc⟩ := hlist xs ys hwa hwb (by simpa using hse.1) hse.2
      refine ⟨.arr js, .arr ks, ?_, ?_, ?_⟩
      · rw [show normalize (.list xs) = (normList xs).map .arr from rfl, hjs]; rfl
      · rw [show normalize (.list ys) = (normList ys).map .arr from rfl, hks]; rfl
      · rw [show canon (.arr js) = .arr (canonList js) from rfl,
          show canon (.arr ks) = .arr (canonList ks) from rfl, hc]
    case list.tuple xs ys =>
      rw [show wf (.list xs) = wfList xs from rfl] at hwa
      rw [show wf (.tuple ys) = wfList ys from rfl] at hwb
      rw [show semEqbF (f + 1) (.list xs) (.tuple ys) =
        (xs.length == ys.length && (xs.zip ys).all fun p => semEqbF f p.1 p.2) from rfl,
        Bool.and_eq_true] at hse
      obtain ⟨js, ks, hjs, hks, hc⟩ := hlist xs ys hwa hwb (by simpa using hse.1) hse.2
      refine ⟨.arr js, .arr ks, ?_, ?_, ?_⟩
      · rw [show normalize (.list xs) = (normList xs).map .arr from rfl, hjs]; rfl
      · rw [show normalize (.tuple ys) = (normList ys).map .arr from rfl, hks]; rfl
      · rw [show canon (.arr js) = .arr (canonList js) from rfl,
          show canon (.arr ks) = .arr (canonList ks) from rfl, hc]
    case tuple.list xs ys =>
      rw [show wf (.tuple xs) = wfList xs from rfl] at hwa
      rw [show wf (.list ys) = wfList ys from rfl] at hwb
      rw [show semEqbF (f + 1) (.tuple xs) (.list ys) =
        (xs.length == ys.length && (xs.zip ys).all fun p => semEqbF f p.1 p.2) from rfl,
        Bool.and_eq_true] at hse
      obtain ⟨js, ks, hjs, hks, hc⟩ := hlist xs ys hwa hwb (by simpa using hse.1) hse.2
      refine ⟨.arr js, .arr ks, ?_, ?_, ?_⟩
      · rw [show normalize (.tuple xs) = (normList xs).map .arr from rfl, hjs]; rfl
      · rw [show normalize (.list ys) = (normList ys).map .arr from rfl, hks]; rfl
      · rw [show canon (.arr js) = .arr (canonList js) from rfl,
          show canon (.arr ks) = .arr (canonList ks) from rfl, hc]
    case tuple.tuple xs ys =>
      rw [show wf (.tuple xs) = wfList xs from rfl] at hwa
      rw [show wf (.tuple ys) = wfList ys from rfl] at hwb
      rw [show semEqbF (f + 1) (.tuple xs) (.tuple ys) =
        (xs.length == ys.length && (xs.zip ys).all fun p => semEqbF f p.1 p.2) from rfl,
        Bool.and_eq_true] at hse
      obtain ⟨js, ks, hjs, hks, hc⟩ := hlist xs ys hwa hwb (by simpa using hse.1) hse.2
      refine ⟨.arr js, .arr ks, ?_, ?_, ?_⟩
      · rw [show normalize (.tuple xs) = (normList xs).map .arr from rfl, hjs]; rfl
      · rw [show normalize (.tuple ys) = (normList ys).map .arr from rfl, hks]; rfl
      · rw [show canon (.arr js) = .arr (canonList js) from rfl,
          show canon (.arr ks) = .arr (canonList ks) from rfl, hc]
    case set.set xs ys =>
      rw [show wf (.set xs) = (hashableListB xs &&
        (match normList xs with
         | some js => pairwiseB cdB js
         | Option.none => false)) from rfl, Bool.and_eq_true] at hwa
      rw [show wf (.set ys) = (hashableListB ys &&
        (match normList ys with
         | some js => pairwiseB cdB js
         | Option.none => false)) from rfl, Bool.and_eq_true] at hwb
      rw [show semEqbF (f + 1) (.set xs) (.set ys) = setMatch (semEqbF f) xs ys
        from rfl] at hse
      cases hnl : normList xs with
      | none =>
        rw [hnl] at hwa
        exact absurd hwa.2 fun h => Bool.noConfusion (show false = true from h)
      | some js =>
      cases hnl₂ : normList ys with
      | none =>
        rw [hnl₂] at hwb
        exact absurd hwb.2 fun h => Bool.noConfusion (show false = true from h)
      | some ks =>
      rw [hnl] at hwa
      rw [hnl₂] at hwb
      have hpwj : pairwiseB cdB js = true := hwa.2
      have hpwk : pairwiseB cdB ks = true := hwb.2
      have hofj := normList_hashable_objFree hwa.1 hnl
      have hofk := normList_hashable_objFree hwb.1 hnl₂
      obtain ⟨ys', hpys, hf₂⟩ := setMatch_forall₂ xs ys hse
      have hf₃ : List.Forall₂
          (fun x y => ∃ j, normalize x = some j ∧ normalize y = some j) xs ys' :=
        forall₂_imp_mem hf₂ fun x hx y hy hxy =>
          semEq_hashable_norm f x y (hashableListB_mem hwa.1 hx)
            (hashableListB_mem hwb.1 (hpys.mem_iff.mpr hy)) hxy
      have hfx : List.Forall₂ (fun x j => normalize x = some j) xs js :=
        normList_forall₂.mp hnl
      have hfy : List.Forall₂ (fun y k => normalize y = some k) ys ks :=
        normList_forall₂.mp hnl₂
      have hfy' : List.Forall₂ (fun y j => normalize y = some j) ys' js :=
        forall₂_compose
          (fun x y j h₁ h₂ => by
            obtain ⟨j', hj₁, hj₂⟩ := h₁
            rw [hj₁] at h₂
            cases h₂
            exact hj₂)
          hf₃ hfx
      obtain ⟨ks', hkp, hfk'⟩ := forall₂_perm_left hpys hfy
      have hks' : ks' = js :=
        forall₂_right_unique
          (fun y j₁ j₂ h₁ h₂ => by rw [h₁] at h₂; cases h₂; rfl) hfk' hfy'
      have hperm : js.Perm ks := by
        rw [← hks']
        exact hkp.symm
      obtain ⟨m, hm₁, hm₂⟩ := set_sort_unique hofj hofk hpwj hpwk hperm
      refine ⟨.arr m, .arr m, ?_, ?_, rfl⟩
      · rw [show normalize (.set xs) =
          (match normList xs with
           | some js => (osort pyLtJ js).map .arr
           | Option.none => Option.none) from rfl, hnl]
        rw [show (match some js with
          | some js => (osort pyLtJ js).map JVal.arr
          | Option.none => Option.none) = (osort pyLtJ js).map JVal.arr from rfl, hm₁]
        rfl
      · rw [show normalize (.set ys) =
          (match normList ys with
           | some js => (osort pyLtJ js).map .arr
           | Option.none => Option.none) from rfl, hnl₂]
        rw [show (match some ks with
          | some js => (osort pyLtJ js).map JVal.arr
          | Option.none => Option.none) = (osort pyLtJ ks).map JVal.arr from rfl, hm₂]
        rfl
    case dict.dict es fs =>
      rw [show wf (.dict es) = (nodupB (es.map fun kv => kv.1.toStr) && wfEntries es)
        from rfl, Bool.and_eq_true] at hwa
      rw [show wf (.dict fs) = (nodupB (fs.map fun kv => kv.1.toStr) && wfEntries fs)
        from rfl, Bool.and_eq_true] at hwb
      rw [show semEqbF (f + 1) (.dict es) (.dict fs) =
        (es.length == fs.length && es.all fun kv =>
          match lookupP kv.1 fs with
          | some w => semEqbF f kv.2 w
          | Option.none => false) from rfl, Bool.and_eq_true] at hse
      obtain ⟨kvs, hkvs⟩ := wfEntries_norm_total hwa.2
      obtain ⟨fvs, hfvs⟩ := wfEntries_norm_total hwb.2
      have hkeys₁ : kvs.map Prod.fst = es.map fun e => e.1.toStr := normEntries_keys hkvs
      have hkeys₂ : fvs.map Prod.fst = fs.map fun e => e.1.toStr := normEntries_keys hfvs
      have hnd₁ : (kvs.map Prod.fst).Nodup := by
        rw [hkeys₁]
        exact nodupB_iff.mp hwa.1
      have hnd₂ : (fvs.map Prod.fst).Nodup := by
        rw [hkeys₂]
        exact nodupB_iff.mp hwb.1
      have hlen : kvs.length = fvs.length := by
        have h₁ := (normEntries_forall₂.mp hkvs).length_eq
        have h₂ := (normEntries_forall₂.mp hfvs).length_eq
        have h₃ : es.length = fs.length := by simpa using hse.1
        omega
      have hall : ∀ k v, (k, v) ∈ es → ∃ w, lookupP k fs = some w ∧
          semEqbF f v w = true := by
        intro k v hm
        have h := List.all_eq_true.mp hse.2 (k, v) hm
        cases hl : lookupP k fs with
        | none =>
          rw [show lookupP ((k, v) : PKey × PyVal).1 fs = lookupP k fs from rfl, hl] at h
          cases h
        | some w =>
          rw [show lookupP ((k, v) : PKey × PyVal).1 fs = lookupP k fs from rfl, hl] at h
          exact ⟨w, rfl, h⟩
      have hsub : ∀ p ∈ canonEntries kvs, p ∈ canonEntries fvs := by
        intro p hp
        rw [canonEntries_eq_map] at hp
        obtain ⟨⟨s, j⟩, hsj, rfl⟩ := List.mem_map.mp hp
        obtain ⟨k, v, hkv, hks, hnv⟩ := normEntries_mem_rev hkvs hsj
        obtain ⟨w, hlw, hsw⟩ := hall k v hkv
        have hwmem : (k, w) ∈ fs := lookupP_mem hlw
        have hwv : wf v = true := wfEntries_mem hwa.2 hkv
        have hww : wf w = true := wfEntries_mem hwb.2 hwmem
        obtain ⟨jv, jw, hjv, hjw, hcvw⟩ := ih v w hwv hww hsw
        have hjj : jv = j := by
          rw [hnv] at hjv
          cases hjv
          rfl
        obtain ⟨j', hj', hj'm⟩ := normEntries_mem hfvs hwmem
        have hjj' : j' = jw := by
          rw [hjw] at hj'
          cases hj'
          rfl
        rw [canonEntries_eq_map]
        refine List.mem_map.mpr ⟨(k.toStr, jw), hjj' ▸ hj'm, ?_⟩
        rw [show ((k.toStr, jw) : String × JVal).1 = k.toStr from rfl, hks]
        rw [show ((k.toStr, jw) : String × JVal).2 = jw from rfl]
        rw [show ((s, j) : String × JVal).2 = j from rfl, ← hjj, hcvw]
      have hcnd : ((canonEntries kvs).map Prod.fst).Nodup := by
        rw [canonEntries_keys]
        exact hnd₁
      have hperm : (canonEntries kvs).Perm (canonEntries fvs) := by
        have hsp := List.subperm_of_subset (List.Nodup.of_map _ hcnd) hsub
        refine hsp.perm_of_length_le ?_
        rw [canonEntries_eq_map, canonEntries_eq_map, List.length_map, List.length_map,
          hlen]
      refine ⟨.obj (collapseEntries kvs), .obj (collapseEntries fvs), ?_, ?_, ?_⟩
      · rw [show normalize (.dict es) =
          (normEntries es).map (fun kvs => .obj (collapseEntries kvs)) from rfl, hkvs]
        rfl
      · rw [show normalize (.dict fs) =
          (normEntries fs).map (fun kvs => .obj (collapseEntries kvs)) from rfl, hfvs]
        rfl
      · rw [collapseEntries_nodup hnd₁, collapseEntries_nodup hnd₂]
        rw [show canon (.obj kvs) = .obj (sortE (canonEntries kvs)) from rfl,
          show canon (.obj fvs) = .obj (sortE (canonEntries fvs)) from rfl]
        rw [sortE_perm_unique hperm hcnd]

/-- C1 (amended): for well-formed run specifications — every mapping's keys
have pairwise distinct string coercions, and every set's elements are
hashable, pairwise distinct and pairwise order-comparable once normalized —
semantic equality (different key insertion orders, a tuple in place of a
list, a set in any iteration order) implies byte-identical canonical JSON
payloads and the identical run identifier from `hash_spec`.  Without the
key condition the claim fails: `str(key)` collisions make the canonical
payload depend on insertion order (see the counterexample). -/
theorem thm_C1 (a b : PyVal) (hwa : wf a = true) (hwb : wf b = true)
    (hse : semEqb a b = true) :
    (normalize a).map payload = (normalize b).map payload ∧
    hash_spec a = hash_spec b ∧ hash_spec a ≠ Option.none := by
  obtain ⟨ja, jb, hja, hjb, hc⟩ := canonNorm_eq (pyDepth a) a b hwa hwb hse
  have hp : payload ja = payload jb := by
    simp only [payload, hc]
  refine ⟨?_, ?_, ?_⟩
  · rw [hja, hjb, Option.map_some', Option.map_some', hp]
  · simp only [hash_spec, hja, hjb, Option.map_some', hp]
  · simp only [hash_spec, hja, Option.map_some']
    exact fun h => Option.noConfusion h

set_option maxRecDepth 10000 in
/-- C1 counterexample to the unamended claim: the Python dicts with entries
1 maps-to "a", "1" maps-to "b" (in that insertion order) and "1" maps-to
"b", 1 maps-to "a" are equal as mappings — Python `==` compares the keys 1
and "1" as distinct — yet `str(key)` coercion collapses both keys to the
string "1", last writer wins, and the canonical payload and run identifier
depend on the insertion order. -/
theorem cex_C1 :
    semEqb (.dict [(.ki 1, .str "a"), (.ks "1", .str "b")])
        (.dict [(.ks "1", .str "b"), (.ki 1, .str "a")]) = true ∧
    (normalize (.dict [(.ki 1, .str "a"), (.ks "1", .str "b")])).map payload ≠
      (normalize (.dict [(.ks "1", .str "b"), (.ki 1, .str "a")])).map payload ∧
    hash_spec (.dict [(.ki 1, .str "a"), (.ks "1", .str "b")]) ≠
      hash_spec (.dict [(.ks "1", .str "b"), (.ki 1, .str "a")]) :=
  ⟨by decide, by decide, by decide⟩

/-- Witness for C1 at a concrete pair: a mapping given in two insertion
orders, with a list against a tuple and a set in two iteration orders
(mixing a boolean with integers, exercising the numeric cross-type
order). -/
theorem thm_C1_witness :
    wf (.dict [(.ks "p", .list [.int 1, .int 2]),
        (.ks "s", .set [.int 2, .bool true, .int 5])]) = true ∧
    wf (.dict [(.ks "s", .set [.int 5, .int 2, .bool true]),
        (.ks "p", .tuple [.int 1, .int 2])]) = true ∧
    semEqb (.dict [(.ks "p", .list [.int 1, .int 2]),
        (.ks "s", .set [.int 2, .bool true, .int 5])])
      (.dict [(.ks "s", .set [.int 5, .int 2, .bool true]),
        (.ks "p", .tuple [.int 1, .int 2])]) = true ∧
    ((normalize (.dict [(.ks "p", .list [.int 1, .int 2]),
        (.ks "s", .set [.int 2, .bool true, .int 5])])).map payload =
      (normalize (.dict [(.ks "s", .set [.int 5, .int 2, .bool true]),
        (.ks "p", .tuple [.int 1, .int 2])])).map payload ∧
     hash_spec (.dict [(.ks "p", .list [.int 1, .int 2]),
        (.ks "s", .set [.int 2, .bool true, .int 5])]) =
      hash_spec (.dict [(.ks "s", .set [.int 5, .int 2, .bool true]),
        (.ks "p", .tuple [.int 1, .int 2])]) ∧
     hash_spec (.dict [(.ks "p", .list [.int 1, .int 2]),
        (.ks "s", .set [.int 2, .bool true, .int 5])]) ≠ Option.none) :=
  ⟨by decide, by decide, by decide,
    thm_C1 (.dict [(.ks "p", .list [.int 1, .int 2]),
        (.ks "s", .set [.int 2, .bool true, .int 5])])
      (.dict [(.ks "s", .set [.int 5, .int 2, .bool true]),
        (.ks "p", .tuple [.int 1, .int 2])])
      (by decide) (by decide) (by decide)⟩

end Simcache

